import Mathlib

/-!
Verification of the graph cost/path engine of a Dijkstra visualization
application (source: src/main.rs).  The engine parts embedded here:

* the node/edge data model (`DijkstraNode`, `Wire`, `Graph`), mirroring the
  `egui_snarl` graph of `DijkstraNode` values;
* the priority-queue ordering `impl Ord for State`;
* `run_dijkstra` (the hand-rolled Dijkstra search), including start/finish
  discovery, the relaxation loop over output pins 0..10, the stale-entry
  skip, the early break on popping the finish node, path reconstruction by
  `prev` links, and the `total_cost` write;
* `connect` (legal kind-pair filtering);
* the node-insertion menu of `show_graph_menu` (unique Start/Finish gating);
* the geometric cost recomputation pass of `final_node_rect`;
* the auto-recalculate block at the end of `App::update`.

Modelling conventions:
* `NodeId` is `Nat`; `i32` values are `Int` (edge costs in the application
  are produced by the geometric recomputation, hence small and nonnegative,
  so two's-complement wrap-around is never reached on the runs covered by
  the theorems' hypotheses; the `i32::MAX` sentinel is the literal
  2147483647);
* `HashMap<NodeId, i32>` cost payloads are association lists queried with
  `List.lookup`, matching `HashMap::get`;
* the `BinaryHeap` is a list popped at its maximum element with respect to
  the source's `Ord for State`; that order is antisymmetric and two
  `State`s comparing equal are structurally equal, so which maximal copy a
  real binary heap returns is immaterial and the model is exact;
* the two unbounded `while` loops (the main loop and path reconstruction)
  are embedded with an explicit fuel that is proved sufficient under the
  theorems' hypotheses (the main loop by the measure
  2 * (sum of tentative distances) + queue length, the reconstruction by
  the strict decrease of tentative distance along predecessor links);
* `Snarl` indexing with an id absent from the graph panics in the source;
  the model takes the default branch there, and the well-formedness
  hypotheses of the theorems (wires reference existing nodes) keep the
  two in agreement.
-/

namespace DV

/-- Node payloads, mirroring `enum DijkstraNode`.  `Distance` is the
spec's Waypoint kind; the payloads are the per-predecessor cost maps. -/
inductive DijkstraNode : Type where
  | Start : DijkstraNode
  | Distance : List (Nat × Int) → DijkstraNode
  | Finish : List (Nat × Int) → DijkstraNode
deriving DecidableEq, Repr

/-- A directed wire from output pin (srcNode, srcOut) to input pin
(dstNode, dstIn), mirroring `egui_snarl` wires. -/
structure Wire : Type where
  srcNode : Nat
  srcOut : Nat
  dstNode : Nat
  dstIn : Nat
deriving DecidableEq, Repr

/-- The graph: nodes with stable ids (iterated in `nodes_ids_data` order)
plus the wire set (modelled as a list; the source stores wires in a set,
so duplicates are immaterial to every lookup made here). -/
structure Graph : Type where
  nodes : List (Nat × DijkstraNode)
  wires : List Wire
deriving DecidableEq, Repr

/-- Priority queue element, mirroring `struct State`. -/
structure State : Type where
  cost : Int
  node : Nat
deriving DecidableEq, Repr

/-- The application state relevant to the engine: the graph, the
highlighted path (`viewer.path_nodes`), the auto-recalc flag and the
stored total cost (`DijkstraApp` fields in the source). -/
structure DijkstraApp : Type where
  snarl : Graph
  path_nodes : List Nat
  auto_recalc : Bool
  total_cost : Int
deriving DecidableEq, Repr

/-- The `i32::MAX` sentinel used for unreached distances. -/
def maxI : Int := 2147483647

/-- Three-way comparison on `Int` (Rust `i32::cmp`). -/
def cmpI (x y : Int) : Ordering :=
  if x < y then .lt else if x = y then .eq else .gt

/-- Three-way comparison on `Nat` (Rust `NodeId::cmp`). -/
def cmpN (x y : Nat) : Ordering :=
  if x < y then .lt else if x = y then .eq else .gt

/-- `impl Ord for State`: reversed cost comparison (min-heap through a
max-heap), ties broken by node id. -/
def cmpState (a b : State) : Ordering :=
  (cmpI b.cost a.cost).then (cmpN a.node b.node)

/-- Strict less-than of the heap order. -/
def stateLT (a b : State) : Bool :=
  cmpState a b == Ordering.lt

/-- Maximum element of the heap contents with respect to `cmpState`
(`BinaryHeap::pop` returns a maximum; see the header note on why the
choice among equal-comparing elements is unique). -/
def heapMax : List State → Option State
  | [] => none
  | s :: rest => some (rest.foldl (fun m t => if stateLT m t then t else m) s)

/-- `BinaryHeap::pop`: remove a maximal element. -/
def heapPop (q : List State) : Option (State × List State) :=
  match heapMax q with
  | none => none
  | some m => some (m, q.erase m)

/-- Pointwise update of a distance table (`HashMap::insert`). -/
def fupd (f : Nat → Int) (k : Nat) (x : Int) : Nat → Int :=
  fun v => if v = k then x else f v

/-- Pointwise update of the predecessor table (`HashMap::insert`). -/
def pupd (f : Nat → Option Nat) (k : Nat) (x : Nat) : Nat → Option Nat :=
  fun v => if v = k then some x else f v

/-- Node lookup, `snarl[id]` (first association; node ids are unique in a
`Snarl`, which the theorems assume through a `Nodup` hypothesis). -/
def lookupNode (g : Graph) (v : Nat) : Option DijkstraNode :=
  g.nodes.lookup v

/-- Edge cost looked up at the destination's cost map keyed by the
predecessor, exactly the `edge_cost` match in `run_dijkstra`:
Distance destinations default to 1, Finish destinations default to 0,
any other destination costs 0.  (An id absent from the graph would panic
in the source; the default branch stands in for that unreachable case.) -/
def edgeCost (g : Graph) (pred dst : Nat) : Int :=
  match lookupNode g dst with
  | some (DijkstraNode.Distance costs) => (costs.lookup pred).getD 1
  | some (DijkstraNode.Finish costs) => (costs.lookup pred).getD 0
  | _ => 0

/-- Remote input pins of output pin (node, o): destinations of the wires
leaving that pin (`snarl.out_pin(op).remotes`, keeping only the node id,
which is all `run_dijkstra` uses). -/
def outRemotes (g : Graph) (node o : Nat) : List Nat :=
  (g.wires.filter (fun w => w.srcNode == node && w.srcOut == o)).map
    (fun w => w.dstNode)

/-- All relaxation targets of a node: the `for output_idx in 0..10` scan. -/
def relaxTargets (g : Graph) (node : Nat) : List Nat :=
  (List.range 10).flatMap (fun o => outRemotes g node o)

/-- There is a wire from u into the scanned pins of u (an edge the search
can traverse). -/
def HasEdge (g : Graph) (u w : Nat) : Prop :=
  w ∈ relaxTargets g u

/-- Any wire from u to v, regardless of pin index. -/
def hasWireB (g : Graph) (u v : Nat) : Bool :=
  g.wires.any (fun w => w.srcNode == u && w.dstNode == v)

/-- Reachability along wires (the directed paths of the claims). -/
inductive Reach (g : Graph) (a : Nat) : Nat → Prop where
  | refl : Reach g a a
  | step {b c : Nat} : Reach g a b → hasWireB g b c = true → Reach g a c

/-- Dijkstra working state: tentative distances, predecessor links and
the frontier heap. -/
structure DState : Type where
  dist : Nat → Int
  prev : Nat → Option Nat
  queue : List State

/-- One relaxation (`if next.cost < dist[&remote.node] { ... }`), with
`cost` the cost the current node was popped at. -/
def relaxOne (g : Graph) (node : Nat) (cost : Int) (s : DState) (remote : Nat) :
    DState :=
  let nc := cost + edgeCost g node remote
  if nc < s.dist remote then
    { dist := fupd s.dist remote nc
      prev := pupd s.prev remote node
      queue := { cost := nc, node := remote } :: s.queue }
  else s

/-- Relax every outgoing connection of the popped node. -/
def relaxAll (g : Graph) (node : Nat) (cost : Int) (s : DState) : DState :=
  (relaxTargets g node).foldl (relaxOne g node cost) s

/-- The main `while let Some(State { cost, node }) = priority_queue.pop()`
loop: break when the finish node pops, skip stale entries, otherwise relax.
Fuel bounds the iteration count; `loopFuel` below is proved sufficient. -/
def dloop (g : Graph) (fin : Nat) : Nat → DState → DState
  | 0, s => s
  | Nat.succ f, s =>
    match heapPop s.queue with
    | none => s
    | some (st, rest) =>
      if st.node = fin then { s with queue := rest }
      else if s.dist st.node < st.cost then
        dloop g fin f { s with queue := rest }
      else
        dloop g fin f (relaxAll g st.node st.cost { s with queue := rest })

/-- Fuel sufficient for the main loop (twice the initial distance sum plus
queue slack; each iteration strictly decreases
2 * Σ tentative distances + queue length). -/
def loopFuel (g : Graph) : Nat :=
  2 * g.nodes.length * 2147483647 + 2

/-- Path reconstruction: `while current != start { current = prev[&current];
path.insert(0, current) }`.  Fuel is proved sufficient from the strict
distance decrease along predecessor links; a missing predecessor (a panic
in the source, unreachable on the covered runs) yields `none`. -/
def recon (prev : Nat → Option Nat) (start : Nat) :
    Nat → Nat → List Nat → Option (List Nat)
  | 0, _, _ => none
  | Nat.succ f, current, acc =>
    if current = start then some acc
    else
      match prev current with
      | none => none
      | some u => recon prev start f u (u :: acc)

/-- Fuel sufficient for reconstruction (`i32::MAX` + slack). -/
def reconFuel : Nat := 2147483649

/-- One step of the start/finish discovery loop: a Start entry overwrites
the start slot, a Finish entry the finish slot. -/
def ftStep (acc : Option Nat × Option Nat) (p : Nat × DijkstraNode) :
    Option Nat × Option Nat :=
  match p.2 with
  | DijkstraNode.Start => (some p.1, acc.2)
  | DijkstraNode.Finish _ => (acc.1, some p.1)
  | _ => acc

/-- The start/finish discovery pass (`for (node_id, node) in
self.snarl.nodes_ids_data()`; a later Start or Finish entry overwrites an
earlier one, exactly as the source's loop does). -/
def findTerminals (g : Graph) : Option Nat × Option Nat :=
  g.nodes.foldl ftStep (none, none)

/-- The initial Dijkstra state: every distance at the `i32::MAX` sentinel
except the start node at 0, no predecessors, the start node queued at
cost 0. -/
def initState (start : Nat) : DState :=
  { dist := fupd (fun _ => maxI) start 0
    prev := fun _ => none
    queue := [{ cost := 0, node := start }] }

/-- The graph-level core of `run_dijkstra`: the result plus the total cost
to store on success (`none` when `self.total_cost` is not written). -/
def run_core (g : Graph) : Except String (List Nat) × Option Int :=
  match findTerminals g with
  | (none, _) => (Except.error "Start node not found", none)
  | (some _, none) => (Except.error "Finish node not found", none)
  | (some start, some fin) =>
    let se := dloop g fin (loopFuel g) (initState start)
    if (se.prev fin).isSome ∨ fin = start then
      match recon se.prev start reconFuel fin [fin] with
      | some path => (Except.ok path, some (se.dist fin))
      | none => (Except.error "predecessor chain incomplete", none)
    else
      (Except.error "No path found", none)

/-- `fn run_dijkstra(&mut self)`: runs the core on the stored graph and
writes `self.total_cost` exactly when the success branch is reached. -/
def run_dijkstra (app : DijkstraApp) : Except String (List Nat) × DijkstraApp :=
  match run_core app.snarl with
  | (r, some t) => (r, { app with total_cost := t })
  | (r, none) => (r, app)

/-- Sum of the per-edge costs along a node sequence, each edge cost looked
up at the destination's cost map keyed by the predecessor. -/
def pathCost (g : Graph) : List Nat → Int
  | [] => 0
  | [_] => 0
  | a :: b :: rest => edgeCost g a b + pathCost g (b :: rest)

/-- The sequence is a walk along wires. -/
def isWalkB (g : Graph) : List Nat → Bool
  | [] => false
  | [_] => true
  | a :: b :: rest => hasWireB g a b && isWalkB g (b :: rest)

/-- The cost-payload entries of a node. -/
def payloadEntries : DijkstraNode → List (Nat × Int)
  | DijkstraNode.Start => []
  | DijkstraNode.Distance m => m
  | DijkstraNode.Finish m => m

/-- The wire joins a legal kind pair (the pairs `connect` accepts). -/
def legalWireB (g : Graph) (w : Wire) : Bool :=
  match lookupNode g w.srcNode, lookupNode g w.dstNode with
  | some DijkstraNode.Start, some (DijkstraNode.Distance _) => true
  | some (DijkstraNode.Distance _), some (DijkstraNode.Distance _) => true
  | some (DijkstraNode.Distance _), some (DijkstraNode.Finish _) => true
  | _, _ => false

/-- Well-formedness of an application graph: unique node ids, wires only
between existing nodes, wires only out of the single output pin offered by
the viewer (`outputs` is at most 1, so every wire's source pin index is
below the 0..10 scan), wires only between legal kind pairs, and cost-map
entries at least 1 (the geometric recomputation clamps at 1). -/
structure WFGraph (g : Graph) : Prop where
  nodup : (g.nodes.map Prod.fst).Nodup
  srcMem : ∀ w ∈ g.wires, w.srcNode ∈ g.nodes.map Prod.fst
  dstMem : ∀ w ∈ g.wires, w.dstNode ∈ g.nodes.map Prod.fst
  outLt : ∀ w ∈ g.wires, w.srcOut < 10
  legal : ∀ w ∈ g.wires, legalWireB g w = true
  costsPos : ∀ p ∈ g.nodes, ∀ q ∈ payloadEntries p.2, (1 : Int) ≤ q.2

/-- `fn connect`: insert the wire exactly for the three legal kind pairs,
otherwise leave the graph unchanged. -/
def connect (g : Graph) (fromPin toPin : Nat × Nat) : Graph :=
  match lookupNode g fromPin.1, lookupNode g toPin.1 with
  | some DijkstraNode.Start, some (DijkstraNode.Distance _) =>
    { g with wires := g.wires ++
        [{ srcNode := fromPin.1, srcOut := fromPin.2
           dstNode := toPin.1, dstIn := toPin.2 }] }
  | some (DijkstraNode.Distance _), some (DijkstraNode.Distance _) =>
    { g with wires := g.wires ++
        [{ srcNode := fromPin.1, srcOut := fromPin.2
           dstNode := toPin.1, dstIn := toPin.2 }] }
  | some (DijkstraNode.Distance _), some (DijkstraNode.Finish _) =>
    { g with wires := g.wires ++
        [{ srcNode := fromPin.1, srcOut := fromPin.2
           dstNode := toPin.1, dstIn := toPin.2 }] }
  | _, _ => g

/-- The node has kind Start. -/
def isStartB : DijkstraNode → Bool
  | DijkstraNode.Start => true
  | _ => false

/-- The node has kind Finish. -/
def isFinishB : DijkstraNode → Bool
  | DijkstraNode.Finish _ => true
  | _ => false

/-- The `show_graph_menu` guard for offering the Start button: every node
must be of a different kind (`snarl.nodes().all(..)` with the match that
maps Start to false and everything else to true). -/
def can_add_start (g : Graph) : Bool :=
  g.nodes.all (fun p => !isStartB p.2)

/-- The `show_graph_menu` guard for offering the Finish button. -/
def can_add_finish (g : Graph) : Bool :=
  g.nodes.all (fun p => !isFinishB p.2)

/-- `snarl.insert_node` (a fresh id is supplied by the store). -/
def insert_node (g : Graph) (freshId : Nat) (nd : DijkstraNode) : Graph :=
  { g with nodes := g.nodes ++ [(freshId, nd)] }

/-- The three buttons of the add-node menu. -/
inductive MenuChoice : Type where
  | startBtn : MenuChoice
  | valueBtn : MenuChoice
  | finishBtn : MenuChoice

/-- A click in the `show_graph_menu` add-node menu: Start and Finish are
inserted only when their button is offered, Value always. -/
def show_graph_menu_click (g : Graph) (freshId : Nat) (c : MenuChoice) : Graph :=
  match c with
  | MenuChoice.startBtn =>
    if can_add_start g then insert_node g freshId DijkstraNode.Start else g
  | MenuChoice.valueBtn => insert_node g freshId (DijkstraNode.Distance [])
  | MenuChoice.finishBtn =>
    if can_add_finish g then insert_node g freshId (DijkstraNode.Finish []) else g

/-- Number of Start nodes. -/
def countStart (g : Graph) : Nat :=
  (g.nodes.filter (fun p => isStartB p.2)).length

/-- Number of Finish nodes. -/
def countFinish (g : Graph) : Nat :=
  (g.nodes.filter (fun p => isFinishB p.2)).length

/-- The wire a `connect(from, to)` call would insert. -/
def mkW (fromPin toPin : Nat × Nat) : Wire :=
  { srcNode := fromPin.1, srcOut := fromPin.2
    dstNode := toPin.1, dstIn := toPin.2 }

/-- `round(dist) / 10` then clamp at 1: the cost computed from a rounded
distance in `final_node_rect` (`let cost = (dist.round() as i32) / 10;
costs.insert(remote.node, if cost < 1 { 1 } else { cost })`). -/
def costFromDist (d : Int) : Int :=
  let cost := d / 10
  if cost < 1 then 1 else cost

/-- `HashMap::insert` on an association list: the new binding replaces any
older binding of the same key. -/
def mapInsert (m : List (Nat × Int)) (k : Nat) (v : Int) : List (Nat × Int) :=
  (k, v) :: m.filter (fun p => p.1 != k)

/-- Remote output pins wired into input pin (node, i):
`snarl.in_pin(ip).remotes`, keeping the source node id. -/
def inRemotes (g : Graph) (node i : Nat) : List Nat :=
  (g.wires.filter (fun w => w.dstNode == node && w.dstIn == i)).map
    (fun w => w.srcNode)

/-- The cost map rebuilt for one node by the recomputation pass of
`final_node_rect`: scan input pins 0..10, and for every remote whose
layout rectangle is stored, insert the clamped scaled distance.  `dists v
u` is the rounded Euclidean distance between v's left-center anchor and
u's right-center anchor, taken as an input (the floating-point geometry
itself is outside the integer engine). -/
def recomputeNodeCosts (g : Graph) (stored : List Nat)
    (dists : Nat → Nat → Int) (node : Nat) : List (Nat × Int) :=
  ((List.range 10).flatMap (fun i => inRemotes g node i)).foldl
    (fun costs remote =>
      if remote ∈ stored then
        mapInsert costs remote (costFromDist (dists node remote))
      else costs)
    []

/-- The whole recomputation pass of `final_node_rect`: every Distance or
Finish node whose rectangle is stored gets its cost map replaced by the
rebuilt one, unless the rebuilt map is empty (`if !costs.is_empty()`). -/
def final_node_rect_pass (g : Graph) (stored : List Nat)
    (dists : Nat → Nat → Int) : Graph :=
  { g with
    nodes := g.nodes.map (fun p =>
      if p.1 ∈ stored then
        match p.2 with
        | DijkstraNode.Start => p
        | DijkstraNode.Distance m =>
          let cs := recomputeNodeCosts g stored dists p.1
          if cs = [] then (p.1, DijkstraNode.Distance m)
          else (p.1, DijkstraNode.Distance cs)
        | DijkstraNode.Finish m =>
          let cs := recomputeNodeCosts g stored dists p.1
          if cs = [] then (p.1, DijkstraNode.Finish m)
          else (p.1, DijkstraNode.Finish cs)
      else p) }

/-- The auto-recalculate block at the end of `App::update`: when the flag
is set, clear `path_nodes`, re-run the search, store the path on success
and swallow the failure otherwise. -/
def update_auto_recalc (app : DijkstraApp) : DijkstraApp :=
  if app.auto_recalc then
    let app1 := { app with path_nodes := ([] : List Nat) }
    match run_dijkstra app1 with
    | (Except.ok path, app2) => { app2 with path_nodes := path }
    | (Except.error _, app2) => app2
  else app

/-- Reachability invariant of the search state: every queued node and
every node that has received a predecessor is reachable from the start
node along wires. -/
def Inv2 (g : Graph) (start : Nat) (s : DState) : Prop :=
  (∀ st ∈ s.queue, Reach g start st.node) ∧
  (∀ v u, s.prev v = some u → Reach g start v)

/-- Sum of the (truncated) tentative distances over the node list; part of
the termination measure of the main loop. -/
def sumDist (g : Graph) (s : DState) : Nat :=
  (g.nodes.map (fun p => (s.dist p.1).toNat)).sum

/-- Termination measure of the main loop: every iteration strictly
decreases it (a pop shrinks the queue, every push strictly decreases a
tentative distance). -/
def mu (g : Graph) (s : DState) : Nat :=
  2 * sumDist g s + s.queue.length

/-- The queue holds a pending entry for u at u's current tentative
distance (so u's latest value is still awaiting expansion). -/
def pendQ (s : DState) (u : Nat) : Prop :=
  ∃ st ∈ s.queue, st.node = u ∧ st.cost = s.dist u

/-- Plain state invariants of the search: distances are nonnegative, at
most the sentinel, 0 at the start node; queued entries never run below
their node's current distance and were pushed below the sentinel; a node
below the sentinel is the start node or has a predecessor; a predecessor
link is a real edge whose relaxation bound still holds. -/
structure BaseInv (g : Graph) (start : Nat) (s : DState) : Prop where
  dist_nonneg : ∀ v, 0 ≤ s.dist v
  dist_le_max : ∀ v, s.dist v ≤ maxI
  dist_start : s.dist start = 0
  queue_ok : ∀ st ∈ s.queue,
    s.dist st.node ≤ st.cost ∧ 0 ≤ st.cost ∧ st.cost < maxI
  prev_some : ∀ v, s.dist v < maxI → v = start ∨ (s.prev v).isSome = true
  prev_edge : ∀ v u, s.prev v = some u →
    HasEdge g u v ∧ s.dist u + edgeCost g u v ≤ s.dist v ∧ s.dist v < maxI

/-- Full loop invariant: the plain invariants plus, for every predecessor
link and every edge out of a finitely-distanced node, either the
relaxation equality (resp. bound) holds or the source node has a pending
queue entry at its current distance that will restore it. -/
structure DInv (g : Graph) (start : Nat) (s : DState) : Prop where
  base : BaseInv g start s
  prev_pend : ∀ v u, s.prev v = some u →
    s.dist v = s.dist u + edgeCost g u v ∨ pendQ s u
  fr : ∀ u w, HasEdge g u w → s.dist u < maxI →
    s.dist w ≤ s.dist u + edgeCost g u w ∨ pendQ s u

/-- Mid-expansion invariant: while the popped node u0 (whose distance is
fixed at the popped cost c0) is being expanded, the pending disjunct may
instead point at the not-yet-relaxed remainder of u0's target list. -/
structure MidInv (g : Graph) (start u0 : Nat) (c0 : Int) (rem : List Nat)
    (s : DState) : Prop where
  base : BaseInv g start s
  du : s.dist u0 = c0
  prev_pend : ∀ v u, s.prev v = some u →
    s.dist v = s.dist u + edgeCost g u v ∨ pendQ s u ∨ (u = u0 ∧ v ∈ rem)
  fr : ∀ u w, HasEdge g u w → s.dist u < maxI →
    s.dist w ≤ s.dist u + edgeCost g u w ∨ pendQ s u ∨ (u = u0 ∧ w ∈ rem)

/-- What holds of the final state when the loop stopped by popping the
finish node: the finish distance is final and below the popped cost,
which itself bounds every remaining queue entry from below. -/
def BreakFact (fin : Nat) (s : DState) : Prop :=
  s.dist fin < maxI ∧ ∃ cf, s.dist fin ≤ cf ∧ ∀ st ∈ s.queue, cf ≤ st.cost

/-! ### Helper lemmas -/

theorem lookup_eq_of_mem {l : List (Nat × DijkstraNode)}
    (h : (l.map Prod.fst).Nodup) {v : Nat} {nd : DijkstraNode}
    (hm : (v, nd) ∈ l) : l.lookup v = some nd := by
  induction l with
  | nil => cases hm
  | cons a t ih =>
    simp only [List.map_cons, List.nodup_cons] at h
    rcases List.mem_cons.mp hm with he | ht
    · subst he
      simp [List.lookup]
    · by_cases hv : v = a.1
      · exact absurd (hv ▸ List.mem_map_of_mem Prod.fst ht) h.1
      · simpa [List.lookup, (by simpa using hv : (v == a.1) = false)]
          using ih h.2 ht

theorem ftStep_fst_isSome {acc : Option Nat × Option Nat}
    {p : Nat × DijkstraNode} (h : acc.1.isSome) : (ftStep acc p).1.isSome := by
  rcases p with ⟨i, nd⟩
  cases nd <;> simp [ftStep] <;> exact h

theorem ftStep_snd_isSome {acc : Option Nat × Option Nat}
    {p : Nat × DijkstraNode} (h : acc.2.isSome) : (ftStep acc p).2.isSome := by
  rcases p with ⟨i, nd⟩
  cases nd <;> simp [ftStep] <;> exact h

theorem ft_foldl_fst_isSome_mono {l : List (Nat × DijkstraNode)}
    {acc : Option Nat × Option Nat} (h : acc.1.isSome) :
    (l.foldl ftStep acc).1.isSome := by
  induction l generalizing acc with
  | nil => exact h
  | cons a t ih => exact ih (ftStep_fst_isSome h)

theorem ft_foldl_snd_isSome_mono {l : List (Nat × DijkstraNode)}
    {acc : Option Nat × Option Nat} (h : acc.2.isSome) :
    (l.foldl ftStep acc).2.isSome := by
  induction l generalizing acc with
  | nil => exact h
  | cons a t ih => exact ih (ftStep_snd_isSome h)

theorem ft_foldl_fst_isSome_of_mem {l : List (Nat × DijkstraNode)}
    {acc : Option Nat × Option Nat} {s : Nat}
    (hm : (s, DijkstraNode.Start) ∈ l) : (l.foldl ftStep acc).1.isSome := by
  induction l generalizing acc with
  | nil => cases hm
  | cons a t ih =>
    rcases List.mem_cons.mp hm with he | ht
    · subst he
      rw [List.foldl_cons]
      exact ft_foldl_fst_isSome_mono (by simp [ftStep])
    · exact ih ht

theorem ft_foldl_snd_isSome_of_mem {l : List (Nat × DijkstraNode)}
    {acc : Option Nat × Option Nat} {f : Nat} {m : List (Nat × Int)}
    (hm : (f, DijkstraNode.Finish m) ∈ l) : (l.foldl ftStep acc).2.isSome := by
  induction l generalizing acc with
  | nil => cases hm
  | cons a t ih =>
    rcases List.mem_cons.mp hm with he | ht
    · subst he
      rw [List.foldl_cons]
      exact ft_foldl_snd_isSome_mono (by simp [ftStep])
    · exact ih ht

theorem ft_foldl_fst_none {l : List (Nat × DijkstraNode)}
    {acc : Option Nat × Option Nat}
    (h : ∀ p ∈ l, p.2 ≠ DijkstraNode.Start) :
    (l.foldl ftStep acc).1 = acc.1 := by
  induction l generalizing acc with
  | nil => rfl
  | cons a t ih =>
    have ha : (ftStep acc a).1 = acc.1 := by
      rcases a with ⟨i, nd⟩
      cases nd with
      | Start => exact absurd rfl (h _ (List.mem_cons_self _ _))
      | Distance m => rfl
      | Finish m => rfl
    rw [List.foldl_cons, ih fun p hp => h p (List.mem_cons_of_mem _ hp), ha]

theorem ft_foldl_snd_none {l : List (Nat × DijkstraNode)}
    {acc : Option Nat × Option Nat}
    (h : ∀ p ∈ l, ∀ m, p.2 ≠ DijkstraNode.Finish m) :
    (l.foldl ftStep acc).2 = acc.2 := by
  induction l generalizing acc with
  | nil => rfl
  | cons a t ih =>
    have ha : (ftStep acc a).2 = acc.2 := by
      rcases a with ⟨i, nd⟩
      cases nd with
      | Start => rfl
      | Distance m => rfl
      | Finish m => exact absurd rfl (h _ (List.mem_cons_self _ _) m)
    rw [List.foldl_cons, ih fun p hp => h p (List.mem_cons_of_mem _ hp), ha]

theorem ft_foldl_fst_mem {l : List (Nat × DijkstraNode)}
    {acc : Option Nat × Option Nat} {s : Nat}
    (h : (l.foldl ftStep acc).1 = some s) :
    acc.1 = some s ∨ (s, DijkstraNode.Start) ∈ l := by
  induction l generalizing acc with
  | nil => exact Or.inl h
  | cons a t ih =>
    rw [List.foldl_cons] at h
    rcases ih h with hacc | hmem
    · rcases a with ⟨i, nd⟩
      cases nd with
      | Start =>
        simp only [ftStep] at hacc
        right
        have his : i = s := Option.some.inj hacc
        simp [his]
      | Distance m => exact Or.inl (by simpa [ftStep] using hacc)
      | Finish m => exact Or.inl (by simpa [ftStep] using hacc)
    · exact Or.inr (List.mem_cons_of_mem _ hmem)

theorem ft_foldl_snd_mem {l : List (Nat × DijkstraNode)}
    {acc : Option Nat × Option Nat} {f : Nat}
    (h : (l.foldl ftStep acc).2 = some f) :
    acc.2 = some f ∨ ∃ m, (f, DijkstraNode.Finish m) ∈ l := by
  induction l generalizing acc with
  | nil => exact Or.inl h
  | cons a t ih =>
    rw [List.foldl_cons] at h
    rcases ih h with hacc | hmem
    · rcases a with ⟨i, nd⟩
      cases nd with
      | Start => exact Or.inl (by simpa [ftStep] using hacc)
      | Distance m => exact Or.inl (by simpa [ftStep] using hacc)
      | Finish m =>
        simp only [ftStep] at hacc
        right
        have hif : i = f := Option.some.inj hacc
        exact ⟨m, by simp [hif]⟩
    · rcases hmem with ⟨m, hm⟩
      exact Or.inr ⟨m, List.mem_cons_of_mem _ hm⟩

theorem findTerminals_fst_mem {g : Graph} {s : Nat}
    (h : (findTerminals g).1 = some s) : (s, DijkstraNode.Start) ∈ g.nodes := by
  rcases ft_foldl_fst_mem h with hacc | hmem
  · cases hacc
  · exact hmem

theorem findTerminals_snd_mem {g : Graph} {f : Nat}
    (h : (findTerminals g).2 = some f) :
    ∃ m, (f, DijkstraNode.Finish m) ∈ g.nodes := by
  rcases ft_foldl_snd_mem h with hacc | hmem
  · cases hacc
  · exact hmem

theorem run_core_shape (g : Graph) :
    (∃ p t, run_core g = (Except.ok p, some t)) ∨
    (∃ e, run_core g = (Except.error e, none)) := by
  unfold run_core
  rcases h : findTerminals g with ⟨s, f⟩
  rcases s with _ | s
  · exact Or.inr ⟨_, rfl⟩
  · rcases f with _ | f
    · exact Or.inr ⟨_, rfl⟩
    · simp only
      split
      · split
        · exact Or.inl ⟨_, _, rfl⟩
        · exact Or.inr ⟨_, rfl⟩
      · exact Or.inr ⟨_, rfl⟩

theorem run_dijkstra_error_eq {app : DijkstraApp} {e : String}
    (h : (run_dijkstra app).1 = Except.error e) : (run_dijkstra app).2 = app := by
  rcases run_core_shape app.snarl with ⟨p, t, hc⟩ | ⟨e2, hc⟩
  · rw [run_dijkstra, hc] at h ⊢
    cases h
  · rw [run_dijkstra, hc]

theorem run_dijkstra_fst (app : DijkstraApp) :
    (run_dijkstra app).1 = (run_core app.snarl).1 := by
  rw [run_dijkstra]
  rcases h : run_core app.snarl with ⟨r, t⟩
  rcases t with _ | t <;> rfl

theorem run_core_no_start {g : Graph} (h : (findTerminals g).1 = none) :
    run_core g = (Except.error "Start node not found", none) := by
  rcases hft : findTerminals g with ⟨s, f⟩
  rw [hft] at h
  obtain rfl : s = none := h
  rw [run_core, hft]

theorem run_core_no_finish {g : Graph} {s : Nat}
    (h1 : (findTerminals g).1 = some s) (h2 : (findTerminals g).2 = none) :
    run_core g = (Except.error "Finish node not found", none) := by
  rcases hft : findTerminals g with ⟨s0, f⟩
  rw [hft] at h1 h2
  obtain rfl : s0 = some s := h1
  obtain rfl : f = none := h2
  rw [run_core, hft]

theorem connect_nodes (g : Graph) (fp tp : Nat × Nat) :
    (connect g fp tp).nodes = g.nodes := by
  unfold connect
  split <;> rfl

theorem legalWireB_congr {g1 g2 : Graph} (h : g1.nodes = g2.nodes) (w : Wire) :
    legalWireB g1 w = legalWireB g2 w := by
  unfold legalWireB lookupNode
  rw [h]

theorem connect_eq (g : Graph) (fp tp : Nat × Nat) :
    (legalWireB g (mkW fp tp) = true ∧
      connect g fp tp = { g with wires := g.wires ++ [mkW fp tp] }) ∨
    (legalWireB g (mkW fp tp) = false ∧ connect g fp tp = g) := by
  rcases h1 : lookupNode g fp.1 with _ | nd1
  · right
    refine ⟨?_, ?_⟩ <;> simp [connect, legalWireB, mkW, h1]
  · rcases h2 : lookupNode g tp.1 with _ | nd2
    · cases nd1 <;>
        (right; refine ⟨?_, ?_⟩ <;> simp [connect, legalWireB, mkW, h1, h2])
    · cases nd1 <;> cases nd2 <;>
        first
          | (left; refine ⟨?_, ?_⟩ <;>
              (simp [connect, legalWireB, mkW, h1, h2]; done))
          | (right; refine ⟨?_, ?_⟩ <;>
              (simp [connect, legalWireB, mkW, h1, h2]; done))

theorem countStart_insert (g : Graph) (i : Nat) (nd : DijkstraNode) :
    countStart (insert_node g i nd) =
      countStart g + (if isStartB nd then 1 else 0) := by
  cases hb : isStartB nd <;>
    simp [countStart, insert_node, List.filter_append, List.filter, hb]

theorem countFinish_insert (g : Graph) (i : Nat) (nd : DijkstraNode) :
    countFinish (insert_node g i nd) =
      countFinish g + (if isFinishB nd then 1 else 0) := by
  cases hb : isFinishB nd <;>
    simp [countFinish, insert_node, List.filter_append, List.filter, hb]

theorem can_add_start_iff (g : Graph) :
    can_add_start g = true ↔ countStart g = 0 := by
  simp [can_add_start, countStart, List.all_eq_true, List.length_eq_zero,
    List.filter_eq_nil_iff]

theorem can_add_finish_iff (g : Graph) :
    can_add_finish g = true ↔ countFinish g = 0 := by
  simp [can_add_finish, countFinish, List.all_eq_true, List.length_eq_zero,
    List.filter_eq_nil_iff]

theorem costFromDist_ge_one (d : Int) : 1 ≤ costFromDist d := by
  unfold costFromDist
  dsimp only
  split
  · exact le_refl 1
  · exact not_lt.mp (by assumption)

theorem recompute_entries_spec (g : Graph) (stored : List Nat)
    (dists : Nat → Nat → Int) (v : Nat) :
    ∀ q ∈ recomputeNodeCosts g stored dists v,
      q.2 = costFromDist (dists v q.1) := by
  unfold recomputeNodeCosts
  suffices h : ∀ (l : List Nat) (acc : List (Nat × Int)),
      (∀ q ∈ acc, q.2 = costFromDist (dists v q.1)) →
      ∀ q ∈ l.foldl
          (fun costs remote =>
            if remote ∈ stored then
              mapInsert costs remote (costFromDist (dists v remote))
            else costs)
          acc,
        q.2 = costFromDist (dists v q.1) by
    exact h _ [] (by simp)
  intro l
  induction l with
  | nil => intro acc hacc; simpa using hacc
  | cons r t ih =>
    intro acc hacc
    rw [List.foldl_cons]
    apply ih
    by_cases hr : r ∈ stored
    · simp only [if_pos hr]
      intro q hq
      rcases List.mem_cons.mp hq with rfl | hq2
      · rfl
      · exact hacc q (List.mem_of_mem_filter hq2)
    · simpa [if_neg hr] using hacc

/-! ### Claim theorems -/

/-- C7: the connect operation inserts the wire exactly when the
(source kind, destination kind) pair is Start→Waypoint, Waypoint→Waypoint
or Waypoint→Finish, is a silent no-op for every other pair, and hence
preserves the invariant that every wire joins a legal kind pair. -/
theorem c7_connect_legal :
    ∀ (g : Graph) (fp tp : Nat × Nat),
      (legalWireB g (mkW fp tp) = true →
        connect g fp tp = { g with wires := g.wires ++ [mkW fp tp] }) ∧
      (legalWireB g (mkW fp tp) = false → connect g fp tp = g) ∧
      ((∀ w ∈ g.wires, legalWireB g w = true) →
        ∀ w ∈ (connect g fp tp).wires,
          legalWireB (connect g fp tp) w = true) := by
  intro g fp tp
  refine ⟨?_, ?_, ?_⟩
  · intro h
    rcases connect_eq g fp tp with ⟨_, he⟩ | ⟨hl, _⟩
    · exact he
    · rw [h] at hl
      cases hl
  · intro h
    rcases connect_eq g fp tp with ⟨hl, _⟩ | ⟨_, he⟩
    · rw [h] at hl
      cases hl
    · exact he
  · intro hall w hw
    rw [legalWireB_congr (connect_nodes g fp tp) w]
    rcases connect_eq g fp tp with ⟨hl, he⟩ | ⟨_, he⟩
    · rw [he] at hw
      rcases List.mem_append.mp hw with h | h
      · exact hall w h
      · rw [List.mem_singleton.mp h]
        exact hl
    · rw [he] at hw
      exact hall w hw

/-- Witness for C7 at a concrete two-node graph: the legal Start→Waypoint
pair is inserted, and the illegal Waypoint→Start pair is refused. -/
theorem c7_witness :
    connect { nodes := [(0, DijkstraNode.Start),
                        (1, DijkstraNode.Distance [])], wires := [] }
        (0, 0) (1, 0) =
      { nodes := [(0, DijkstraNode.Start), (1, DijkstraNode.Distance [])]
        wires := [{ srcNode := 0, srcOut := 0, dstNode := 1, dstIn := 0 }] } ∧
    connect { nodes := [(0, DijkstraNode.Start),
                        (1, DijkstraNode.Distance [])], wires := [] }
        (1, 0) (0, 0) =
      { nodes := [(0, DijkstraNode.Start), (1, DijkstraNode.Distance [])]
        wires := [] } := by
  constructor
  · exact (c7_connect_legal _ (0, 0) (1, 0)).1 (by decide)
  · exact (c7_connect_legal _ (1, 0) (0, 0)).2.1 (by decide)

/-- C8: a menu insertion preserves the at-most-one-Start and
at-most-one-Finish invariants; the Start (resp. Finish) button is not
offered (and a click inserts nothing) exactly when a Start (resp. Finish)
node already exists. -/
theorem c8_unique_terminals :
    ∀ (g : Graph) (freshId : Nat) (c : MenuChoice),
      (countStart g ≤ 1 → countStart (show_graph_menu_click g freshId c) ≤ 1) ∧
      (countFinish g ≤ 1 →
        countFinish (show_graph_menu_click g freshId c) ≤ 1) ∧
      (can_add_start g = false →
        show_graph_menu_click g freshId MenuChoice.startBtn = g) ∧
      (can_add_finish g = false →
        show_graph_menu_click g freshId MenuChoice.finishBtn = g) ∧
      (can_add_start g = true ↔ countStart g = 0) ∧
      (can_add_finish g = true ↔ countFinish g = 0) := by
  intro g freshId c
  refine ⟨?_, ?_, ?_, ?_, can_add_start_iff g, can_add_finish_iff g⟩
  · intro hle
    cases c with
    | startBtn =>
      by_cases h : can_add_start g = true
      · have h0 : countStart g = 0 := (can_add_start_iff g).mp h
        simp [show_graph_menu_click, h, countStart_insert, h0, isStartB]
      · have hf : can_add_start g = false := Bool.eq_false_iff.mpr h
        simpa [show_graph_menu_click, hf] using hle
    | valueBtn =>
      simpa [show_graph_menu_click, countStart_insert, isStartB] using hle
    | finishBtn =>
      by_cases h : can_add_finish g = true
      · simpa [show_graph_menu_click, h, countStart_insert, isStartB]
          using hle
      · have hf : can_add_finish g = false := Bool.eq_false_iff.mpr h
        simpa [show_graph_menu_click, hf] using hle
  · intro hle
    cases c with
    | startBtn =>
      by_cases h : can_add_start g = true
      · simpa [show_graph_menu_click, h, countFinish_insert, isFinishB]
          using hle
      · have hf : can_add_start g = false := Bool.eq_false_iff.mpr h
        simpa [show_graph_menu_click, hf] using hle
    | valueBtn =>
      simpa [show_graph_menu_click, countFinish_insert, isFinishB] using hle
    | finishBtn =>
      by_cases h : can_add_finish g = true
      · have h0 : countFinish g = 0 := (can_add_finish_iff g).mp h
        simp [show_graph_menu_click, h, countFinish_insert, h0, isFinishB]
      · have hf : can_add_finish g = false := Bool.eq_false_iff.mpr h
        simpa [show_graph_menu_click, hf] using hle
  · intro h
    simp [show_graph_menu_click, h]
  · intro h
    simp [show_graph_menu_click, h]

/-- Witness for C8 at a concrete graph that already has a Start node:
clicking Start again changes nothing, and the counts stay at most 1. -/
theorem c8_witness :
    show_graph_menu_click { nodes := [(0, DijkstraNode.Start)], wires := [] }
        7 MenuChoice.startBtn =
      { nodes := [(0, DijkstraNode.Start)], wires := [] } ∧
    countStart (show_graph_menu_click
      { nodes := [(0, DijkstraNode.Start)], wires := [] }
      7 MenuChoice.startBtn) ≤ 1 := by
  constructor
  · exact (c8_unique_terminals _ 7 MenuChoice.startBtn).2.2.1 (by decide)
  · exact (c8_unique_terminals _ 7 MenuChoice.startBtn).1 (by decide)

/-- An application state whose graph has a node but no Start and no
Finish. -/
def c3AppNoStart : DijkstraApp :=
  { snarl := { nodes := [(0, DijkstraNode.Distance [])], wires := [] }
    path_nodes := [], auto_recalc := false, total_cost := 1 }

/-- An application state whose graph has a Start but no Finish. -/
def c3AppNoFinish : DijkstraApp :=
  { snarl := { nodes := [(0, DijkstraNode.Start)], wires := [] }
    path_nodes := [], auto_recalc := false, total_cost := 1 }

/-- C3 counterexample: the empty graph has no Finish node, yet the search
does not fail with the missing-Finish error — the missing-Start check runs
first and wins, refuting the unconditional second half of the claim. -/
theorem c3_counterexample :
    (run_dijkstra { snarl := { nodes := [], wires := [] }, path_nodes := []
                    auto_recalc := false, total_cost := 1 }).1 =
      Except.error "Start node not found" ∧
    Except.error (ε := String) (α := List Nat) "Start node not found" ≠
      Except.error "Finish node not found" := by
  refine ⟨rfl, fun h => ?_⟩
  injection h with h2
  exact absurd h2 (by decide)

/-- C3 (amended): a graph with no Start node fails with the missing-Start
error; a graph with a Start node but no Finish node fails with the
missing-Finish error.  In both cases the application state is returned
unchanged (no path, no `total_cost` write). -/
theorem c3_missing_terminal_errors :
    ∀ app : DijkstraApp,
      ((∀ p ∈ app.snarl.nodes, p.2 ≠ DijkstraNode.Start) →
        run_dijkstra app = (Except.error "Start node not found", app)) ∧
      ((∃ s, (s, DijkstraNode.Start) ∈ app.snarl.nodes) →
        (∀ p ∈ app.snarl.nodes, ∀ m, p.2 ≠ DijkstraNode.Finish m) →
        run_dijkstra app = (Except.error "Finish node not found", app)) := by
  intro app
  constructor
  · intro h
    have hft : (findTerminals app.snarl).1 = none := ft_foldl_fst_none h
    rw [run_dijkstra, run_core_no_start hft]
  · intro hs h
    rcases hs with ⟨s, hsmem⟩
    have h1 : (findTerminals app.snarl).1.isSome :=
      ft_foldl_fst_isSome_of_mem hsmem
    rcases Option.isSome_iff_exists.mp h1 with ⟨s0, hs0⟩
    have h2 : (findTerminals app.snarl).2 = none := ft_foldl_snd_none h
    rw [run_dijkstra, run_core_no_finish hs0 h2]

/-- Witness for C3 (amended) at the two concrete graphs: one lacking a
Start, one with a Start but no Finish. -/
theorem c3_witness :
    run_dijkstra c3AppNoStart =
      (Except.error "Start node not found", c3AppNoStart) ∧
    run_dijkstra c3AppNoFinish =
      (Except.error "Finish node not found", c3AppNoFinish) := by
  constructor
  · exact (c3_missing_terminal_errors c3AppNoStart).1 (by decide)
  · refine (c3_missing_terminal_errors c3AppNoFinish).2 ⟨0, by decide⟩ ?_
    intro p hp m hF
    rw [List.mem_singleton.mp hp] at hF
    exact DijkstraNode.noConfusion hF

/-- C6: during the search, an edge whose source is absent from the
destination's cost map costs the default 1 when the destination is a
Waypoint (Distance) node and the default 0 when it is the Finish node. -/
theorem c6_default_costs :
    ∀ (g : Graph) (u v : Nat) (m : List (Nat × Int)),
      (lookupNode g v = some (DijkstraNode.Distance m) → m.lookup u = none →
        edgeCost g u v = 1) ∧
      (lookupNode g v = some (DijkstraNode.Finish m) → m.lookup u = none →
        edgeCost g u v = 0) := by
  intro g u v m
  constructor <;> intro h1 h2 <;> simp [edgeCost, h1, h2]

/-- Witness for C6 at a concrete graph with one Distance node and one
Finish node, both with empty cost maps. -/
theorem c6_witness :
    edgeCost { nodes := [(1, DijkstraNode.Distance []),
                         (2, DijkstraNode.Finish [])], wires := [] } 0 1 = 1 ∧
    edgeCost { nodes := [(1, DijkstraNode.Distance []),
                         (2, DijkstraNode.Finish [])], wires := [] } 0 2 = 0 := by
  constructor
  · exact (c6_default_costs _ 0 1 []).1 (by decide) (by decide)
  · exact (c6_default_costs _ 0 2 []).2 (by decide) (by decide)

/-- C10: the search never mutates the graph or the highlighted path set,
and whenever it returns an error the whole application state — in
particular the stored total cost — is returned unchanged. -/
theorem c10_search_preserves_state :
    ∀ app : DijkstraApp,
      ((run_dijkstra app).2.snarl = app.snarl ∧
        (run_dijkstra app).2.path_nodes = app.path_nodes ∧
        (run_dijkstra app).2.auto_recalc = app.auto_recalc) ∧
      (∀ e, (run_dijkstra app).1 = Except.error e →
        (run_dijkstra app).2 = app) := by
  intro app
  constructor
  · rw [run_dijkstra]
    rcases h : run_core app.snarl with ⟨r, t⟩
    rcases t with _ | t <;> simp
  · intro e h
    exact run_dijkstra_error_eq h

/-- Witness for C10 at a concrete failing application state. -/
theorem c10_witness :
    (run_dijkstra { snarl := { nodes := [(3, DijkstraNode.Distance [])]
                               wires := [] }
                    path_nodes := [9], auto_recalc := false
                    total_cost := 42 }).2 =
      { snarl := { nodes := [(3, DijkstraNode.Distance [])], wires := [] }
        path_nodes := [9], auto_recalc := false, total_cost := 42 } := by
  exact (c10_search_preserves_state _).2 "Start node not found" rfl

/-- C4: the search is deterministic — on identical graph and cost
snapshots it returns the identical result (path and total cost) — and the
frontier order breaks equal-cost ties by node-id comparison. -/
theorem c4_deterministic_tiebreak :
    (∀ g1 g2 : Graph, g1.nodes = g2.nodes → g1.wires = g2.wires →
      run_core g1 = run_core g2) ∧
    (∀ a b : State, a.cost = b.cost → cmpState a b = cmpN a.node b.node) := by
  constructor
  · intro g1 g2 hn hw
    cases g1
    cases g2
    cases hn
    cases hw
    rfl
  · intro a b h
    rw [cmpState, h]
    simp [cmpI, Ordering.then]

/-- Witness for C4 at a concrete graph and a concrete equal-cost tie. -/
theorem c4_witness :
    run_core { nodes := [(0, DijkstraNode.Start)], wires := [] } =
      run_core { nodes := [(0, DijkstraNode.Start)], wires := [] } ∧
    cmpState { cost := 3, node := 1 } { cost := 3, node := 2 } = cmpN 1 2 := by
  constructor
  · exact c4_deterministic_tiebreak.1 _ _ rfl rfl
  · exact c4_deterministic_tiebreak.2 _ _ rfl

/-- An auto-recalc application state displaying a previously found path
while its graph has become empty (so the re-run fails). -/
def c9App : DijkstraApp :=
  { snarl := { nodes := [], wires := [] }
    path_nodes := [5], auto_recalc := true, total_cost := 1 }

/-- C9 counterexample: in auto mode, when the re-run fails, the previously
displayed path is NOT left unchanged — `path_nodes` is cleared before the
re-run and stays empty. -/
theorem c9_counterexample :
    (update_auto_recalc c9App).path_nodes ≠ c9App.path_nodes := by decide

/-- C9 (amended): in auto mode a failing re-run is swallowed — no result
is stored, the graph and the stored total cost are untouched — but the
highlighted path set is left cleared (empty), not at its previous value. -/
theorem c9_auto_failure_swallowed :
    ∀ (sn : Graph) (pn : List Nat) (tc : Int) (e : String),
      (run_dijkstra { snarl := sn, path_nodes := ([] : List Nat)
                      auto_recalc := true, total_cost := tc }).1 =
        Except.error e →
      update_auto_recalc { snarl := sn, path_nodes := pn
                           auto_recalc := true, total_cost := tc } =
        { snarl := sn, path_nodes := ([] : List Nat)
          auto_recalc := true, total_cost := tc } := by
  intro sn pn tc e herr
  have hgoal : update_auto_recalc { snarl := sn, path_nodes := pn, auto_recalc := true, total_cost := tc } = (match run_dijkstra { snarl := sn, path_nodes := ([] : List Nat), auto_recalc := true, total_cost := tc } with | (Except.ok path, app2) => { app2 with path_nodes := path } | (Except.error _, app2) => app2) := rfl
  rw [hgoal]
  rcases hr : run_dijkstra { snarl := sn, path_nodes := ([] : List Nat), auto_recalc := true, total_cost := tc } with ⟨r, a2⟩
  have ha2 : a2 = { snarl := sn, path_nodes := ([] : List Nat), auto_recalc := true, total_cost := tc } := by
    have h := run_dijkstra_error_eq herr
    rw [hr] at h
    exact h
  rw [hr] at herr
  cases r with
  | ok p => cases herr
  | error e2 => exact ha2

/-- Witness for C9 (amended) at the concrete failing auto-recalc state. -/
theorem c9_witness :
    update_auto_recalc { snarl := { nodes := [], wires := [] }
                         path_nodes := [5], auto_recalc := true
                         total_cost := 1 } =
      { snarl := { nodes := [], wires := [] }
        path_nodes := ([] : List Nat), auto_recalc := true
        total_cost := 1 } := by
  exact c9_auto_failure_swallowed { nodes := [], wires := [] } [5] 1
    "Start node not found" rfl

/-- C5: every entry written by the geometric recomputation equals the
rounded anchor distance integer-divided by 10 and clamped at a minimum of
1 (so no recomputed cost is ever below 1), and every recomputed non-Start
node whose rebuilt map is nonempty carries exactly that map in the graph
produced by the pass. -/
theorem c5_recompute_floor :
    ∀ (g : Graph) (stored : List Nat) (dists : Nat → Nat → Int) (v : Nat),
      (∀ q ∈ recomputeNodeCosts g stored dists v,
        q.2 = costFromDist (dists v q.1) ∧ 1 ≤ q.2) ∧
      (∀ nd, (v, nd) ∈ g.nodes → v ∈ stored →
        (∀ m, nd = DijkstraNode.Distance m →
          recomputeNodeCosts g stored dists v ≠ [] →
          (v, DijkstraNode.Distance (recomputeNodeCosts g stored dists v)) ∈
            (final_node_rect_pass g stored dists).nodes) ∧
        (∀ m, nd = DijkstraNode.Finish m →
          recomputeNodeCosts g stored dists v ≠ [] →
          (v, DijkstraNode.Finish (recomputeNodeCosts g stored dists v)) ∈
            (final_node_rect_pass g stored dists).nodes)) := by
  intro g stored dists v
  constructor
  · intro q hq
    have he := recompute_entries_spec g stored dists v q hq
    exact ⟨he, he ▸ costFromDist_ge_one (dists v q.1)⟩
  · intro nd hmem hst
    constructor <;> intro m hnd hne <;> subst hnd <;>
      (refine List.mem_map.mpr ⟨_, hmem, ?_⟩; simp [hst, hne])

theorem stateLT_iff {a b : State} :
    stateLT a b = true ↔
      b.cost < a.cost ∨ (b.cost = a.cost ∧ a.node < b.node) := by
  unfold stateLT cmpState cmpI cmpN
  by_cases h1 : b.cost < a.cost
  · simp [h1, Ordering.then]
    rfl
  · by_cases h2 : b.cost = a.cost
    · by_cases h3 : a.node < b.node
      · simp [h1, h2, h3, Ordering.then]
        rfl
      · by_cases h4 : a.node = b.node <;>
          simp [h1, h2, h3, h4, Ordering.then] <;> rfl
    · simp [h1, h2, Ordering.then]
      rfl

theorem stateLT_false_iff {a b : State} :
    stateLT a b = false ↔
      ¬(b.cost < a.cost ∨ (b.cost = a.cost ∧ a.node < b.node)) := by
  rw [← stateLT_iff]
  cases h : stateLT a b <;> simp

theorem stateLT_irrefl (a : State) : stateLT a a = false := by
  rw [stateLT_false_iff]
  omega

theorem stateGE_trans {a b c : State} (h1 : stateLT a b = false)
    (h2 : stateLT b c = false) : stateLT a c = false := by
  rw [stateLT_false_iff] at h1 h2 ⊢
  omega

theorem stateLT_asymm {a b : State} (h : stateLT a b = true) :
    stateLT b a = false := by
  rw [stateLT_iff] at h
  rw [stateLT_false_iff]
  omega

theorem foldl_max_mem :
    ∀ (l : List State) (a : State),
      l.foldl (fun m t => if stateLT m t then t else m) a = a ∨
        l.foldl (fun m t => if stateLT m t then t else m) a ∈ l := by
  intro l
  induction l with
  | nil => intro a; exact Or.inl rfl
  | cons t ts ih =>
    intro a
    rw [List.foldl_cons]
    rcases ih (if stateLT a t then t else a) with h | h
    · rw [h]
      by_cases hc : stateLT a t = true
      · rw [if_pos hc]
        exact Or.inr (List.mem_cons_self _ _)
      · rw [if_neg hc]
        exact Or.inl rfl
    · exact Or.inr (List.mem_cons_of_mem _ h)

theorem foldl_max_ge :
    ∀ (l : List State) (a : State),
      stateLT (l.foldl (fun m t => if stateLT m t then t else m) a) a = false ∧
      ∀ t ∈ l,
        stateLT (l.foldl (fun m t => if stateLT m t then t else m) a) t
          = false := by
  intro l
  induction l with
  | nil =>
    intro a
    exact ⟨stateLT_irrefl a, by simp⟩
  | cons t ts ih =>
    intro a
    rw [List.foldl_cons]
    obtain ⟨h1, h2⟩ := ih (if stateLT a t then t else a)
    have ha2a : stateLT (if stateLT a t then t else a) a = false := by
      by_cases hc : stateLT a t = true
      · rw [if_pos hc]
        exact stateLT_asymm hc
      · rw [if_neg hc]
        exact stateLT_irrefl a
    have ha2t : stateLT (if stateLT a t then t else a) t = false := by
      by_cases hc : stateLT a t = true
      · rw [if_pos hc]
        exact stateLT_irrefl t
      · rw [if_neg hc]
        exact Bool.eq_false_iff.mpr hc
    refine ⟨stateGE_trans h1 ha2a, ?_⟩
    intro x hx
    rcases List.mem_cons.mp hx with rfl | hxm
    · exact stateGE_trans h1 ha2t
    · exact h2 x hxm

theorem heapMax_mem {q : List State} {m : State} (h : heapMax q = some m) :
    m ∈ q := by
  cases q with
  | nil => cases h
  | cons s rest =>
    have hm : rest.foldl (fun m t => if stateLT m t then t else m) s = m :=
      Option.some.inj h
    rcases foldl_max_mem rest s with h2 | h2
    · rw [hm] at h2
      rw [← h2]
      exact List.mem_cons_self _ _
    · rw [hm] at h2
      exact List.mem_cons_of_mem _ h2

theorem heapMax_ge {q : List State} {m : State} (h : heapMax q = some m) :
    ∀ t ∈ q, stateLT m t = false := by
  cases q with
  | nil => cases h
  | cons s rest =>
    have hm : rest.foldl (fun m t => if stateLT m t then t else m) s = m :=
      Option.some.inj h
    intro t ht
    rcases List.mem_cons.mp ht with rfl | htm
    · rw [← hm]
      exact (foldl_max_ge rest t).1
    · rw [← hm]
      exact (foldl_max_ge rest s).2 t htm

theorem heapMax_cost_le {q : List State} {m : State} (h : heapMax q = some m) :
    ∀ t ∈ q, m.cost ≤ t.cost := by
  intro t ht
  have := heapMax_ge h t ht
  rw [stateLT_false_iff] at this
  omega

theorem heapPop_spec {q : List State} {st : State} {rest : List State}
    (h : heapPop q = some (st, rest)) : st ∈ q ∧ rest = q.erase st := by
  unfold heapPop at h
  cases hm : heapMax q with
  | none =>
    rw [hm] at h
    cases h
  | some m =>
    rw [hm] at h
    have h2 := Option.some.inj h
    obtain ⟨rfl, rfl⟩ := Prod.mk.injEq .. |>.mp h2
    exact ⟨heapMax_mem hm, rfl⟩

theorem heapPop_max {q : List State} {st : State} {rest : List State}
    (h : heapPop q = some (st, rest)) : ∀ t ∈ q, st.cost ≤ t.cost := by
  unfold heapPop at h
  cases hm : heapMax q with
  | none =>
    rw [hm] at h
    cases h
  | some m =>
    rw [hm] at h
    have h2 := Option.some.inj h
    obtain ⟨rfl, rfl⟩ := Prod.mk.injEq .. |>.mp h2
    exact heapMax_cost_le hm

theorem heapPop_eq_none {q : List State} (h : heapPop q = none) : q = [] := by
  cases q with
  | nil => rfl
  | cons s rest =>
    unfold heapPop heapMax at h
    cases h

theorem hasWire_of_target {g : Graph} {u w : Nat} (h : w ∈ relaxTargets g u) :
    hasWireB g u w = true := by
  unfold relaxTargets at h
  rcases List.mem_flatMap.mp h with ⟨o, _, hw⟩
  unfold outRemotes at hw
  rcases List.mem_map.mp hw with ⟨wire, hwf, rfl⟩
  have hmem := List.mem_of_mem_filter hwf
  have hcond := List.of_mem_filter hwf
  unfold hasWireB
  apply List.any_eq_true.mpr
  refine ⟨wire, hmem, ?_⟩
  simp only [Bool.and_eq_true, beq_iff_eq] at hcond
  simp only [Bool.and_eq_true, beq_iff_eq]
  exact ⟨hcond.1, trivial⟩

theorem relaxOne_inv2 {g : Graph} {start node : Nat} {cost : Int} {s : DState}
    {w : Nat} (hr : Reach g start node) (hw : hasWireB g node w = true)
    (h : Inv2 g start s) : Inv2 g start (relaxOne g node cost s w) := by
  unfold relaxOne
  dsimp only
  split
  · constructor
    · intro x hx
      rcases List.mem_cons.mp hx with rfl | hxm
      · exact Reach.step hr hw
      · exact h.1 x hxm
    · intro v u hvu
      unfold pupd at hvu
      by_cases hv : v = w
      · exact hv ▸ Reach.step hr hw
      · exact h.2 v u (by simpa [hv] using hvu)
  · exact h

theorem relaxAll_inv2 {g : Graph} {start node : Nat} {cost : Int} {s : DState}
    (hr : Reach g start node) (h : Inv2 g start s) :
    Inv2 g start (relaxAll g node cost s) := by
  unfold relaxAll
  have key : ∀ (l : List Nat), (∀ w ∈ l, hasWireB g node w = true) →
      ∀ s, Inv2 g start s →
        Inv2 g start (l.foldl (relaxOne g node cost) s) := by
    intro l
    induction l with
    | nil => intro _ s hs; exact hs
    | cons w ws ih =>
      intro hws s hs
      rw [List.foldl_cons]
      exact ih (fun x hx => hws x (List.mem_cons_of_mem _ hx)) _
        (relaxOne_inv2 hr (hws w (List.mem_cons_self _ _)) hs)
  exact key _ (fun w hw => hasWire_of_target hw) s h

theorem dloop_inv2 {g : Graph} {start fin : Nat} :
    ∀ (fuel : Nat) (s : DState),
      Inv2 g start s → Inv2 g start (dloop g fin fuel s) := by
  intro fuel
  induction fuel with
  | zero => intro s hs; exact hs
  | succ f ih =>
    intro s hs
    cases hp : heapPop s.queue with
    | none => simpa [dloop, hp] using hs
    | some pr =>
      rcases pr with ⟨st, rest⟩
      obtain ⟨hmem, hrest⟩ := heapPop_spec hp
      have hbase : Inv2 g start { s with queue := rest } := by
        refine ⟨fun x hx => hs.1 x ?_, hs.2⟩
        rw [hrest] at hx
        exact List.mem_of_mem_erase hx
      simp only [dloop, hp]
      split
      · exact hbase
      · split
        · exact ih _ hbase
        · exact ih _ (relaxAll_inv2 (hs.1 st hmem) hbase)

theorem run_core_terminals {g : Graph} {st fin : Nat}
    (hft : findTerminals g = (some st, some fin)) :
    run_core g =
      (if ((dloop g fin (loopFuel g) (initState st)).prev fin).isSome ∨
          fin = st then
        match recon (dloop g fin (loopFuel g) (initState st)).prev st reconFuel
            fin [fin] with
        | some path =>
          (Except.ok path,
            some ((dloop g fin (loopFuel g) (initState st)).dist fin))
        | none => (Except.error "predecessor chain incomplete", none)
      else (Except.error "No path found", none)) := by
  unfold run_core
  rw [hft]

/-- C2: when the graph contains a Start and a Finish node (the ones the
search discovers) but the Finish node is not reachable from the Start node
along wires, the search fails with the no-path (Unreachable) error and the
application state is unchanged. -/
theorem c2_unreachable :
    ∀ (app : DijkstraApp) (st fin : Nat),
      findTerminals app.snarl = (some st, some fin) →
      ¬ Reach app.snarl st fin →
      run_dijkstra app = (Except.error "No path found", app) := by
  intro app st fin hft hnr
  have hfin_ne : ¬ (fin = st) := fun h => hnr (by rw [h]; exact Reach.refl)
  have hinv : Inv2 app.snarl st
      (dloop app.snarl fin (loopFuel app.snarl) (initState st)) := by
    apply dloop_inv2
    constructor
    · intro x hx
      rcases List.mem_singleton.mp hx with rfl
      exact Reach.refl
    · intro v u hvu
      cases hvu
  have hprev : ((dloop app.snarl fin (loopFuel app.snarl)
      (initState st)).prev fin).isSome = false := by
    cases ho : (dloop app.snarl fin (loopFuel app.snarl)
        (initState st)).prev fin with
    | none => rfl
    | some u => exact absurd (hinv.2 fin u ho) hnr
  have hcore : run_core app.snarl = (Except.error "No path found", none) := by
    rw [run_core_terminals hft, if_neg ?hc]
    case hc =>
      intro h
      rcases h with h | h
      · rw [hprev] at h
        cases h
      · exact hfin_ne h
  rw [run_dijkstra, hcore]

/-- Witness application state for C2: a Start and a Finish with no wires. -/
def c2App : DijkstraApp :=
  { snarl := { nodes := [(0, DijkstraNode.Start), (1, DijkstraNode.Finish [])]
               wires := [] }
    path_nodes := [], auto_recalc := false, total_cost := 1 }

/-- Witness for C2 at the concrete disconnected graph. -/
theorem c2_witness :
    run_dijkstra c2App = (Except.error "No path found", c2App) := by
  apply c2_unreachable c2App 0 1 (by decide)
  intro h
  cases h with
  | step hr hw => simp [hasWireB, c2App] at hw

theorem lookup_mem {α β : Type} [BEq α] [LawfulBEq α] {l : List (α × β)}
    {k : α} {b : β} (h : l.lookup k = some b) : (k, b) ∈ l := by
  induction l with
  | nil => cases h
  | cons a t ih =>
    rcases a with ⟨a1, b1⟩
    by_cases hk : k = a1
    · have hbeq : (k == a1) = true := beq_iff_eq.mpr hk
      simp only [List.lookup, hbeq] at h
      have hb := Option.some.inj h
      subst hk
      rw [← hb]
      exact List.mem_cons_self _ _
    · have hbeq : (k == a1) = false := beq_eq_false_iff_ne.mpr hk
      simp only [List.lookup, hbeq] at h
      exact List.mem_cons_of_mem _ (ih h)

theorem lookupNode_mem {g : Graph} {v : Nat} {nd : DijkstraNode}
    (h : lookupNode g v = some nd) : (v, nd) ∈ g.nodes :=
  lookup_mem h

theorem edgeCost_nonneg {g : Graph} (hwf : WFGraph g) (u v : Nat) :
    0 ≤ edgeCost g u v := by
  unfold edgeCost
  cases hl : lookupNode g v with
  | none => simp
  | some nd =>
    cases nd with
    | Start => simp
    | Distance m =>
      cases hm : m.lookup u with
      | none => simp [hm]
      | some c =>
        have h1 : (1 : Int) ≤ c :=
          hwf.costsPos (v, DijkstraNode.Distance m) (lookupNode_mem hl)
            (u, c) (lookup_mem hm)
        simp [hm]
        omega
    | Finish m =>
      cases hm : m.lookup u with
      | none => simp [hm]
      | some c =>
        have h1 : (1 : Int) ≤ c :=
          hwf.costsPos (v, DijkstraNode.Finish m) (lookupNode_mem hl)
            (u, c) (lookup_mem hm)
        simp [hm]
        omega

theorem edgeCost_pos_of_distance {g : Graph} (hwf : WFGraph g) {u v : Nat}
    {m : List (Nat × Int)}
    (hl : lookupNode g v = some (DijkstraNode.Distance m)) :
    1 ≤ edgeCost g u v := by
  unfold edgeCost
  rw [hl]
  cases hm : m.lookup u with
  | none => simp [hm]
  | some c =>
    have h1 : (1 : Int) ≤ c :=
      hwf.costsPos (v, DijkstraNode.Distance m) (lookupNode_mem hl)
        (u, c) (lookup_mem hm)
    simpa [hm] using h1

theorem target_wire {g : Graph} {u w : Nat} (h : w ∈ relaxTargets g u) :
    ∃ wire ∈ g.wires, wire.srcNode = u ∧ wire.dstNode = w := by
  unfold relaxTargets at h
  rcases List.mem_flatMap.mp h with ⟨o, _, hw⟩
  unfold outRemotes at hw
  rcases List.mem_map.mp hw with ⟨wire, hwf2, rfl⟩
  have hcond := List.of_mem_filter hwf2
  simp only [Bool.and_eq_true, beq_iff_eq] at hcond
  exact ⟨wire, List.mem_of_mem_filter hwf2, hcond.1, rfl⟩

theorem legal_kinds {g : Graph} {wire : Wire}
    (hleg : legalWireB g wire = true) :
    (lookupNode g wire.srcNode = some DijkstraNode.Start ∨
      ∃ m, lookupNode g wire.srcNode = some (DijkstraNode.Distance m)) ∧
    ((∃ m, lookupNode g wire.dstNode = some (DijkstraNode.Distance m)) ∨
      ∃ m, lookupNode g wire.dstNode = some (DijkstraNode.Finish m)) := by
  unfold legalWireB at hleg
  cases h1 : lookupNode g wire.srcNode with
  | none =>
    cases h2 : lookupNode g wire.dstNode with
    | none =>
      rw [h1, h2] at hleg
      exact Bool.noConfusion hleg
    | some nd2 =>
      cases nd2 <;> (rw [h1, h2] at hleg; exact Bool.noConfusion hleg)
  | some nd1 =>
    cases h2 : lookupNode g wire.dstNode with
    | none =>
      cases nd1 <;> (rw [h1, h2] at hleg; exact Bool.noConfusion hleg)
    | some nd2 =>
      cases nd1 <;> cases nd2 <;> rw [h1, h2] at hleg <;>
        first
          | exact Bool.noConfusion hleg
          | exact ⟨Or.inl rfl, Or.inl ⟨_, rfl⟩⟩
          | exact ⟨Or.inl rfl, Or.inr ⟨_, rfl⟩⟩
          | exact ⟨Or.inr ⟨_, rfl⟩, Or.inl ⟨_, rfl⟩⟩
          | exact ⟨Or.inr ⟨_, rfl⟩, Or.inr ⟨_, rfl⟩⟩

theorem target_kind {g : Graph} (hwf : WFGraph g) {u w : Nat}
    (h : w ∈ relaxTargets g u) :
    (∃ m, lookupNode g w = some (DijkstraNode.Distance m)) ∨
    (∃ m, lookupNode g w = some (DijkstraNode.Finish m)) := by
  rcases target_wire h with ⟨wire, hmem, hsrc, hdst⟩
  have hk := (legal_kinds (hwf.legal wire hmem)).2
  rw [hdst] at hk
  exact hk

theorem source_kind {g : Graph} (hwf : WFGraph g) {u w : Nat}
    (h : w ∈ relaxTargets g u) :
    lookupNode g u = some DijkstraNode.Start ∨
    ∃ m, lookupNode g u = some (DijkstraNode.Distance m) := by
  rcases target_wire h with ⟨wire, hmem, hsrc, hdst⟩
  have hk := (legal_kinds (hwf.legal wire hmem)).1
  rw [hsrc] at hk
  exact hk

theorem no_edge_from_finish {g : Graph} (hwf : WFGraph g) {fin : Nat}
    {mf : List (Nat × Int)}
    (hfin : lookupNode g fin = some (DijkstraNode.Finish mf)) {w : Nat}
    (h : w ∈ relaxTargets g fin) : False := by
  rcases source_kind hwf h with h1 | ⟨m, h1⟩ <;> rw [hfin] at h1 <;>
    exact DijkstraNode.noConfusion (Option.some.inj h1)

theorem target_ne_start {g : Graph} (hwf : WFGraph g) {st : Nat}
    (hstart : lookupNode g st = some DijkstraNode.Start) {u w : Nat}
    (h : w ∈ relaxTargets g u) : w ≠ st := by
  intro he
  subst he
  rcases target_kind hwf h with ⟨m, h1⟩ | ⟨m, h1⟩ <;> rw [hstart] at h1 <;>
    exact DijkstraNode.noConfusion (Option.some.inj h1)

theorem hasEdge_of_wire {g : Graph} (hout : ∀ w ∈ g.wires, w.srcOut < 10)
    {u v : Nat} (h : hasWireB g u v = true) : HasEdge g u v := by
  unfold hasWireB at h
  rcases List.any_eq_true.mp h with ⟨wire, hmem, hcond⟩
  simp only [Bool.and_eq_true, beq_iff_eq] at hcond
  unfold HasEdge relaxTargets
  apply List.mem_flatMap.mpr
  refine ⟨wire.srcOut, List.mem_range.mpr (hout wire hmem), ?_⟩
  unfold outRemotes
  apply List.mem_map.mpr
  refine ⟨wire, List.mem_filter.mpr ⟨hmem, ?_⟩, hcond.2⟩
  simp [hcond.1]

theorem pathCost_nonneg {g : Graph} (hwf : WFGraph g) :
    ∀ l, 0 ≤ pathCost g l := by
  intro l
  induction l with
  | nil => simp [pathCost]
  | cons a t ih =>
    cases t with
    | nil => simp [pathCost]
    | cons b r =>
      have hec := edgeCost_nonneg hwf a b
      simp only [pathCost]
      omega

theorem walk_dist {g : Graph} (hwf : WFGraph g) {s : DState}
    (hfr : ∀ u w, HasEdge g u w → s.dist u < maxI →
      s.dist w ≤ s.dist u + edgeCost g u w) :
    ∀ (l : List Nat) (a : Nat) (D : Int),
      isWalkB g l = true → l.head? = some a → s.dist a ≤ D →
      D + pathCost g l < maxI →
      ∃ b, l.getLast? = some b ∧ s.dist b ≤ D + pathCost g l := by
  intro l
  induction l with
  | nil =>
    intro a D hw _ _ _
    cases hw
  | cons a0 t ih =>
    intro a D hw hh hda hlt
    obtain rfl : a0 = a := by simpa using hh
    cases t with
    | nil =>
      refine ⟨a0, rfl, ?_⟩
      simpa [pathCost] using hda
    | cons b r =>
      simp only [isWalkB, Bool.and_eq_true] at hw
      obtain ⟨hwire, hwalk⟩ := hw
      have hedge := hasEdge_of_wire hwf.outLt hwire
      have hecnn : 0 ≤ edgeCost g a0 b := edgeCost_nonneg hwf a0 b
      have hpnn : 0 ≤ pathCost g (b :: r) := pathCost_nonneg hwf _
      have hfull : pathCost g (a0 :: b :: r) =
          edgeCost g a0 b + pathCost g (b :: r) := rfl
      have hda0 : s.dist a0 < maxI := by
        rw [hfull] at hlt
        omega
      have hdb : s.dist b ≤ D + edgeCost g a0 b := by
        have := hfr a0 b hedge hda0
        omega
      have hrec := ih b (D + edgeCost g a0 b) hwalk rfl hdb
        (by rw [hfull] at hlt; omega)
      rcases hrec with ⟨c, hc1, hc2⟩
      refine ⟨c, ?_, ?_⟩
      · rw [List.getLast?_cons_cons]
        exact hc1
      · rw [hfull]
        omega

theorem relaxOne_eq_pos {g : Graph} {u0 w : Nat} {c0 : Int} {s : DState}
    (hlt : c0 + edgeCost g u0 w < s.dist w) :
    relaxOne g u0 c0 s w =
      { dist := fupd s.dist w (c0 + edgeCost g u0 w)
        prev := pupd s.prev w u0
        queue := { cost := c0 + edgeCost g u0 w, node := w } :: s.queue } := by
  unfold relaxOne
  exact if_pos hlt

theorem relaxOne_eq_neg {g : Graph} {u0 w : Nat} {c0 : Int} {s : DState}
    (hge : ¬ c0 + edgeCost g u0 w < s.dist w) :
    relaxOne g u0 c0 s w = s := by
  unfold relaxOne
  exact if_neg hge

theorem sumDist_fupd_lt {d : Nat → Int} {w : Nat} {nc : Int}
    (hlt : nc < d w) (hnn : 0 ≤ nc) :
    ∀ (l : List (Nat × DijkstraNode)), w ∈ l.map Prod.fst →
      (l.map (fun p => (fupd d w nc p.1).toNat)).sum + 1 ≤
        (l.map (fun p => (d p.1).toNat)).sum := by
  intro l
  induction l with
  | nil =>
    intro h
    simp at h
  | cons p t ih =>
    intro hmem
    simp only [List.map_cons, List.sum_cons]
    by_cases hp : p.1 = w
    · have hhead : (fupd d w nc p.1).toNat + 1 ≤ (d p.1).toNat := by
        have h1 : fupd d w nc p.1 = nc := by simp [fupd, hp]
        rw [h1, hp]
        omega
      have htail : (t.map (fun p => (fupd d w nc p.1).toNat)).sum ≤
          (t.map (fun p => (d p.1).toNat)).sum := by
        apply List.sum_le_sum
        intro q _
        by_cases hq1 : q.1 = w
        · have h1 : fupd d w nc q.1 = nc := by simp [fupd, hq1]
          rw [h1, hq1]
          omega
        · simp [fupd, hq1]
      omega
    · have hhead : (fupd d w nc p.1).toNat = (d p.1).toNat := by
        simp [fupd, hp]
      have hmem2 : w ∈ t.map Prod.fst := by
        simp only [List.map_cons, List.mem_cons] at hmem
        rcases hmem with h | h
        · exact absurd h.symm hp
        · exact h
      have := ih hmem2
      omega

theorem mu_erase {g : Graph} {s : DState} {M : State} (hmem : M ∈ s.queue) :
    mu g { s with queue := s.queue.erase M } + 1 = mu g s := by
  unfold mu
  have hs : sumDist g { s with queue := s.queue.erase M } = sumDist g s := rfl
  rw [hs]
  have hlen := List.length_erase_of_mem hmem
  have hpos : 0 < s.queue.length :=
    List.length_pos.mpr (List.ne_nil_of_mem hmem)
  simp only
  omega

theorem mu_relaxOne_le {g : Graph} (hwf : WFGraph g) {u0 w : Nat} {c0 : Int}
    {s : DState} (hw : w ∈ relaxTargets g u0) (h0 : 0 ≤ c0) :
    mu g (relaxOne g u0 c0 s w) ≤ mu g s := by
  have hec : 0 ≤ edgeCost g u0 w := edgeCost_nonneg hwf u0 w
  by_cases hlt : c0 + edgeCost g u0 w < s.dist w
  · rw [relaxOne_eq_pos hlt]
    have hwmem : w ∈ g.nodes.map Prod.fst := by
      rcases target_wire hw with ⟨wire, hmem, _, hdst⟩
      have := hwf.dstMem wire hmem
      rw [hdst] at this
      exact this
    have hsum := sumDist_fupd_lt hlt (by omega) g.nodes hwmem
    unfold mu sumDist
    simp only [List.length_cons]
    unfold sumDist at hsum
    omega
  · rw [relaxOne_eq_neg hlt]

theorem mu_foldl_le {g : Graph} (hwf : WFGraph g) {u0 : Nat} {c0 : Int}
    (h0 : 0 ≤ c0) :
    ∀ (l : List Nat) (s : DState), (∀ w ∈ l, w ∈ relaxTargets g u0) →
      mu g (l.foldl (relaxOne g u0 c0) s) ≤ mu g s := by
  intro l
  induction l with
  | nil => intro s _; exact le_refl _
  | cons w ws ih =>
    intro s hsub
    rw [List.foldl_cons]
    exact le_trans
      (ih _ (fun x hx => hsub x (List.mem_cons_of_mem _ hx)))
      (mu_relaxOne_le hwf (hsub w (List.mem_cons_self _ _)) h0)

theorem relaxOne_mid {g : Graph} (hwf : WFGraph g) {start : Nat}
    (hstart : lookupNode g start = some DijkstraNode.Start)
    {u0 : Nat} {c0 : Int} {w : Nat} {rem : List Nat} {s : DState}
    (hw : w ∈ relaxTargets g u0) (h0 : 0 ≤ c0)
    (hm : MidInv g start u0 c0 (w :: rem) s) :
    MidInv g start u0 c0 rem (relaxOne g u0 c0 s w) := by
  have hec : 0 ≤ edgeCost g u0 w := edgeCost_nonneg hwf u0 w
  by_cases hlt : c0 + edgeCost g u0 w < s.dist w
  case neg =>
    rw [relaxOne_eq_neg hlt]
    refine ⟨hm.base, hm.du, ?_, ?_⟩
    · intro v u hvu
      rcases hm.prev_pend v u hvu with h | h | ⟨hu, hv⟩
      · exact Or.inl h
      · exact Or.inr (Or.inl h)
      · rcases List.mem_cons.mp hv with rfl | hv2
        · subst hu
          left
          have hpe := (hm.base.prev_edge _ _ hvu).2.1
          have hd := hm.du
          omega
        · exact Or.inr (Or.inr ⟨hu, hv2⟩)
    · intro u w2 hedge hdu
      rcases hm.fr u w2 hedge hdu with h | h | ⟨hu, hw2⟩
      · exact Or.inl h
      · exact Or.inr (Or.inl h)
      · rcases List.mem_cons.mp hw2 with rfl | hw3
        · subst hu
          left
          have hd := hm.du
          omega
        · exact Or.inr (Or.inr ⟨hu, hw3⟩)
  case pos =>
    rw [relaxOne_eq_pos hlt]
    have hwne0 : w ≠ u0 := by
      intro he
      rw [he] at hlt hec
      have := hm.du
      omega
    have hwnestart : w ≠ start := target_ne_start hwf hstart hw
    have hmaxw : s.dist w ≤ maxI := hm.base.dist_le_max w
    have hncmax : c0 + edgeCost g u0 w < maxI := by omega
    have hnn : 0 ≤ c0 + edgeCost g u0 w := by omega
    have hdw : fupd s.dist w (c0 + edgeCost g u0 w) w =
        c0 + edgeCost g u0 w := by simp [fupd]
    have hdo : ∀ v, v ≠ w → fupd s.dist w (c0 + edgeCost g u0 w) v =
        s.dist v := by
      intro v hv
      simp [fupd, hv]
    have hdu0 : fupd s.dist w (c0 + edgeCost g u0 w) u0 = c0 := by
      rw [hdo u0 (fun h => hwne0 h.symm)]
      exact hm.du
    have hdle : ∀ v, fupd s.dist w (c0 + edgeCost g u0 w) v ≤ s.dist v := by
      intro v
      by_cases hv : v = w
      · rw [hv, hdw]
        omega
      · rw [hdo v hv]
    have f1 : ∀ v, 0 ≤ fupd s.dist w (c0 + edgeCost g u0 w) v := by
      intro v
      by_cases hv : v = w
      · rw [hv, hdw]
        omega
      · rw [hdo v hv]
        exact hm.base.dist_nonneg v
    have f2 : ∀ v, fupd s.dist w (c0 + edgeCost g u0 w) v ≤ maxI := by
      intro v
      by_cases hv : v = w
      · rw [hv, hdw]
        omega
      · rw [hdo v hv]
        exact hm.base.dist_le_max v
    have f3 : fupd s.dist w (c0 + edgeCost g u0 w) start = 0 := by
      rw [hdo start (fun h => hwnestart h.symm)]
      exact hm.base.dist_start
    have f4 : ∀ st ∈ ({ cost := c0 + edgeCost g u0 w, node := w } :: s.queue),
        fupd s.dist w (c0 + edgeCost g u0 w) st.node ≤ st.cost ∧
          0 ≤ st.cost ∧ st.cost < maxI := by
      intro st hst
      rcases List.mem_cons.mp hst with rfl | hst2
      · exact ⟨le_of_eq hdw, hnn, hncmax⟩
      · obtain ⟨q1, q2, q3⟩ := hm.base.queue_ok st hst2
        exact ⟨le_trans (hdle st.node) q1, q2, q3⟩
    have f5 : ∀ v, fupd s.dist w (c0 + edgeCost g u0 w) v < maxI →
        v = start ∨ (pupd s.prev w u0 v).isSome = true := by
      intro v hv
      by_cases hvw : v = w
      · right
        rw [hvw]
        simp [pupd]
      · rw [hdo v hvw] at hv
        rcases hm.base.prev_some v hv with h | h
        · exact Or.inl h
        · right
          simpa [pupd, hvw] using h
    have f6 : ∀ v u, pupd s.prev w u0 v = some u →
        HasEdge g u v ∧
        fupd s.dist w (c0 + edgeCost g u0 w) u + edgeCost g u v ≤
          fupd s.dist w (c0 + edgeCost g u0 w) v ∧
        fupd s.dist w (c0 + edgeCost g u0 w) v < maxI := by
      intro v u hvu
      by_cases hvw : v = w
      · have hu : u = u0 := by
          rw [hvw] at hvu
          simp [pupd] at hvu
          exact hvu.symm
        refine ⟨?_, ?_, ?_⟩
        · rw [hu, hvw]
          exact hw
        · rw [hu, hvw, hdw, hdu0]
        · rw [hvw, hdw]
          omega
      · have hvu2 : s.prev v = some u := by simpa [pupd, hvw] using hvu
        obtain ⟨e1, e2, e3⟩ := hm.base.prev_edge v u hvu2
        refine ⟨e1, ?_, ?_⟩
        · rw [hdo v hvw]
          have := hdle u
          omega
        · rw [hdo v hvw]
          exact e3
    have f7 : ∀ v u, pupd s.prev w u0 v = some u →
        fupd s.dist w (c0 + edgeCost g u0 w) v =
          fupd s.dist w (c0 + edgeCost g u0 w) u + edgeCost g u v ∨
        (∃ st ∈ ({ cost := c0 + edgeCost g u0 w, node := w } :: s.queue),
          st.node = u ∧
            st.cost = fupd s.dist w (c0 + edgeCost g u0 w) u) ∨
        (u = u0 ∧ v ∈ rem) := by
      intro v u hvu
      by_cases hvw : v = w
      · have hu : u = u0 := by
          rw [hvw] at hvu
          simp [pupd] at hvu
          exact hvu.symm
        left
        rw [hvw, hu, hdw, hdu0]
      · have hvu2 : s.prev v = some u := by simpa [pupd, hvw] using hvu
        by_cases huw : u = w
        · right
          left
          refine ⟨{ cost := c0 + edgeCost g u0 w, node := w },
            List.mem_cons_self _ _, huw.symm, ?_⟩
          rw [huw, hdw]
        · rcases hm.prev_pend v u hvu2 with h | ⟨st, hst, h1, h2⟩ | ⟨hu, hv⟩
          · left
            rw [hdo v hvw, hdo u huw]
            exact h
          · right
            left
            exact ⟨st, List.mem_cons_of_mem _ hst, h1,
              by rw [hdo u huw]; exact h2⟩
          · rcases List.mem_cons.mp hv with rfl | hv2
            · exact absurd rfl hvw
            · exact Or.inr (Or.inr ⟨hu, hv2⟩)
    have f8 : ∀ u w2, HasEdge g u w2 →
        fupd s.dist w (c0 + edgeCost g u0 w) u < maxI →
        fupd s.dist w (c0 + edgeCost g u0 w) w2 ≤
          fupd s.dist w (c0 + edgeCost g u0 w) u + edgeCost g u w2 ∨
        (∃ st ∈ ({ cost := c0 + edgeCost g u0 w, node := w } :: s.queue),
          st.node = u ∧
            st.cost = fupd s.dist w (c0 + edgeCost g u0 w) u) ∨
        (u = u0 ∧ w2 ∈ rem) := by
      intro u w2 hedge hdu
      by_cases huw : u = w
      · right
        left
        refine ⟨{ cost := c0 + edgeCost g u0 w, node := w },
          List.mem_cons_self _ _, huw.symm, ?_⟩
        rw [huw, hdw]
      · rw [hdo u huw] at hdu
        by_cases hw2w : w2 = w
        · by_cases huu0 : u = u0
          · left
            rw [hw2w, huu0, hdw, hdu0]
          · rcases hm.fr u w2 hedge hdu with h | ⟨st, hst, h1, h2⟩ | ⟨hu, _⟩
            · left
              rw [hdo u huw]
              have := hdle w2
              omega
            · right
              left
              exact ⟨st, List.mem_cons_of_mem _ hst, h1,
                by rw [hdo u huw]; exact h2⟩
            · exact absurd hu huu0
        · rcases hm.fr u w2 hedge hdu with h | ⟨st, hst, h1, h2⟩ | ⟨hu, hw3⟩
          · left
            rw [hdo u huw, hdo w2 hw2w]
            exact h
          · right
            left
            exact ⟨st, List.mem_cons_of_mem _ hst, h1,
              by rw [hdo u huw]; exact h2⟩
          · rcases List.mem_cons.mp hw3 with rfl | hw4
            · exact absurd rfl hw2w
            · exact Or.inr (Or.inr ⟨hu, hw4⟩)
    exact ⟨⟨f1, f2, f3, f4, f5, f6⟩, hdu0, f7, f8⟩

theorem foldl_relax_mid {g : Graph} (hwf : WFGraph g) {start : Nat}
    (hstart : lookupNode g start = some DijkstraNode.Start)
    {u0 : Nat} {c0 : Int} (h0 : 0 ≤ c0) :
    ∀ (l : List Nat) (s : DState), (∀ w ∈ l, w ∈ relaxTargets g u0) →
      MidInv g start u0 c0 l s →
      MidInv g start u0 c0 [] (l.foldl (relaxOne g u0 c0) s) := by
  intro l
  induction l with
  | nil => intro s _ hm; exact hm
  | cons w ws ih =>
    intro s hsub hm
    rw [List.foldl_cons]
    exact ih _ (fun x hx => hsub x (List.mem_cons_of_mem _ hx))
      (relaxOne_mid hwf hstart (hsub w (List.mem_cons_self _ _)) h0 hm)

theorem dinv_of_mid {g : Graph} {start u0 : Nat} {c0 : Int} {s : DState}
    (hm : MidInv g start u0 c0 [] s) : DInv g start s := by
  refine ⟨hm.base, ?_, ?_⟩
  · intro v u hvu
    rcases hm.prev_pend v u hvu with h | h | ⟨_, hv⟩
    · exact Or.inl h
    · exact Or.inr h
    · cases hv
  · intro u w he hd
    rcases hm.fr u w he hd with h | h | ⟨_, hv⟩
    · exact Or.inl h
    · exact Or.inr h
    · cases hv

theorem pendQ_of_erase {s : DState} {M : State} {u : Nat}
    (hp : pendQ s u) (hne : ¬ (M.node = u ∧ M.cost = s.dist u)) :
    pendQ { s with queue := s.queue.erase M } u := by
  rcases hp with ⟨st, hst, h1, h2⟩
  have hstne : st ≠ M := by
    intro he
    subst he
    exact hne ⟨h1, h2⟩
  exact ⟨st, (List.mem_erase_of_ne hstne).mpr hst, h1, h2⟩

theorem base_erase {g : Graph} {start : Nat} {s : DState} {M : State}
    (hb : BaseInv g start s) :
    BaseInv g start { s with queue := s.queue.erase M } := by
  refine ⟨hb.dist_nonneg, hb.dist_le_max, hb.dist_start, ?_, hb.prev_some,
    hb.prev_edge⟩
  intro st hst
  exact hb.queue_ok st (List.mem_of_mem_erase hst)

theorem dinv_pop_stale {g : Graph} {start : Nat} {s : DState} {M : State}
    (hd : DInv g start s) (hstale : s.dist M.node < M.cost) :
    DInv g start { s with queue := s.queue.erase M } := by
  have hne : ∀ u : Nat, ¬ (M.node = u ∧ M.cost = s.dist u) := by
    rintro u ⟨h1, h2⟩
    rw [h1] at hstale
    omega
  refine ⟨base_erase hd.base, ?_, ?_⟩
  · intro v u hvu
    rcases hd.prev_pend v u hvu with h | h
    · exact Or.inl h
    · exact Or.inr (pendQ_of_erase h (hne u))
  · intro u w he hd2
    rcases hd.fr u w he hd2 with h | h
    · exact Or.inl h
    · exact Or.inr (pendQ_of_erase h (hne u))

theorem dinv_pop_fin {g : Graph} (hwf : WFGraph g) {start fin : Nat}
    {mf : List (Nat × Int)}
    (hfin : lookupNode g fin = some (DijkstraNode.Finish mf))
    {s : DState} {M : State} (hd : DInv g start s) (hMfin : M.node = fin) :
    DInv g start { s with queue := s.queue.erase M } := by
  refine ⟨base_erase hd.base, ?_, ?_⟩
  · intro v u hvu
    rcases hd.prev_pend v u hvu with h | h
    · exact Or.inl h
    · refine Or.inr (pendQ_of_erase h ?_)
      rintro ⟨h1, _⟩
      have hedge := (hd.base.prev_edge v u hvu).1
      rw [← h1, hMfin] at hedge
      exact no_edge_from_finish hwf hfin hedge
  · intro u w he hd2
    rcases hd.fr u w he hd2 with h | h
    · exact Or.inl h
    · refine Or.inr (pendQ_of_erase h ?_)
      rintro ⟨h1, _⟩
      rw [← h1, hMfin] at he
      exact no_edge_from_finish hwf hfin he

theorem mid_of_pop {g : Graph} {start : Nat} {s : DState} {M : State}
    (hd : DInv g start s) (heq : s.dist M.node = M.cost) :
    MidInv g start M.node M.cost (relaxTargets g M.node)
      { s with queue := s.queue.erase M } := by
  refine ⟨base_erase hd.base, heq, ?_, ?_⟩
  · intro v u hvu
    rcases hd.prev_pend v u hvu with h | h
    · exact Or.inl h
    · by_cases he : M.node = u ∧ M.cost = s.dist u
      · right
        right
        refine ⟨he.1.symm, ?_⟩
        have := (hd.base.prev_edge v u hvu).1
        rw [← he.1] at this
        exact this
      · exact Or.inr (Or.inl (pendQ_of_erase h he))
  · intro u w hedge hd2
    rcases hd.fr u w hedge hd2 with h | h
    · exact Or.inl h
    · by_cases he : M.node = u ∧ M.cost = s.dist u
      · right
        right
        refine ⟨he.1.symm, ?_⟩
        rw [← he.1] at hedge
        exact hedge
      · exact Or.inr (Or.inl (pendQ_of_erase h he))

theorem dloop_master {g : Graph} (hwf : WFGraph g) {start fin : Nat}
    {mf : List (Nat × Int)}
    (hstart : lookupNode g start = some DijkstraNode.Start)
    (hfin : lookupNode g fin = some (DijkstraNode.Finish mf)) :
    ∀ (fuel : Nat) (s : DState), DInv g start s → mu g s < fuel →
      DInv g start (dloop g fin fuel s) ∧
        ((dloop g fin fuel s).queue = [] ∨
          BreakFact fin (dloop g fin fuel s)) := by
  intro fuel
  induction fuel with
  | zero =>
    intro s _ hmu
    exact absurd hmu (Nat.not_lt_zero _)
  | succ f ih =>
    intro s hd hmu
    cases hp : heapPop s.queue with
    | none =>
      have hq := heapPop_eq_none hp
      simp only [dloop, hp]
      exact ⟨hd, Or.inl hq⟩
    | some pr =>
      rcases pr with ⟨M, rest⟩
      obtain ⟨hmem, hrest⟩ := heapPop_spec hp
      obtain ⟨hq1, hq2, hq3⟩ := hd.base.queue_ok M hmem
      have hmu1 : mu g { s with queue := rest } + 1 = mu g s := by
        rw [hrest]
        exact mu_erase hmem
      simp only [dloop, hp]
      by_cases hMfin : M.node = fin
      · rw [if_pos hMfin]
        constructor
        · rw [hrest]
          exact dinv_pop_fin hwf hfin hd hMfin
        · right
          refine ⟨?_, ⟨M.cost, ?_, ?_⟩⟩
          · show s.dist fin < maxI
            rw [← hMfin]
            omega
          · show s.dist fin ≤ M.cost
            rw [← hMfin]
            exact hq1
          · intro st hst
            have hst2 : st ∈ s.queue := by
              rw [hrest] at hst
              exact List.mem_of_mem_erase hst
            exact heapPop_max hp st hst2
      · rw [if_neg hMfin]
        by_cases hstale : s.dist M.node < M.cost
        · rw [if_pos hstale]
          apply ih
          · rw [hrest]
            exact dinv_pop_stale hd hstale
          · omega
        · rw [if_neg hstale]
          have heq : s.dist M.node = M.cost := le_antisymm hq1 (not_lt.mp hstale)
          have hmid : MidInv g start M.node M.cost (relaxTargets g M.node)
              { s with queue := rest } := by
            rw [hrest]
            exact mid_of_pop hd heq
          have hfold := foldl_relax_mid hwf hstart hq2
            (relaxTargets g M.node) { s with queue := rest }
            (fun w hw => hw) hmid
          have hmule : mu g (relaxAll g M.node M.cost
              { s with queue := rest }) ≤ mu g { s with queue := rest } :=
            mu_foldl_le hwf hq2 (relaxTargets g M.node)
              { s with queue := rest } (fun w hw => hw)
          apply ih
          · exact dinv_of_mid hfold
          · omega

theorem recon_succ (prev : Nat → Option Nat) (start f cur : Nat)
    (acc : List Nat) :
    recon prev start (f + 1) cur acc =
      if cur = start then some acc
      else
        match prev cur with
        | none => none
        | some u => recon prev start f u (u :: acc) := rfl

theorem link_eq {g : Graph} (hwf : WFGraph g) {start : Nat} {s : DState}
    (hd : DInv g start s) {cf : Int} (hcf : ∀ st ∈ s.queue, cf ≤ st.cost)
    {v u : Nat} (hpv : s.prev v = some u) (hv : s.dist v ≤ cf) :
    s.dist v = s.dist u + edgeCost g u v := by
  rcases hd.prev_pend v u hpv with heq | ⟨st, hst, h1, h2⟩
  · exact heq
  · have hpe := (hd.base.prev_edge v u hpv).2.1
    have h3 : cf ≤ st.cost := hcf st hst
    have hec : 0 ≤ edgeCost g u v := edgeCost_nonneg hwf u v
    omega

theorem finite_start_kind_eq {g : Graph} (hwf : WFGraph g) {start : Nat}
    {s : DState} (hd : DInv g start s) {u : Nat} (hmax : s.dist u < maxI)
    (h1 : lookupNode g u = some DijkstraNode.Start) : u = start := by
  by_cases hus : u = start
  · exact hus
  · rcases hd.base.prev_some u hmax with h2 | h2
    · exact absurd h2 hus
    · rcases Option.isSome_iff_exists.mp h2 with ⟨z, hz⟩
      have hez := (hd.base.prev_edge u z hz).1
      rcases target_kind hwf hez with ⟨m3, h3⟩ | ⟨m3, h3⟩ <;> rw [h1] at h3 <;>
        exact absurd (Option.some.inj h3) (by simp)

theorem recon_spec {g : Graph} (hwf : WFGraph g) {start : Nat}
    (hstart : lookupNode g start = some DijkstraNode.Start)
    {s : DState} (hd : DInv g start s) {cf : Int}
    (hcf : ∀ st ∈ s.queue, cf ≤ st.cost) :
    ∀ (fuel : Nat) (cur : Nat) (acc : List Nat),
      ((∃ m, lookupNode g cur = some (DijkstraNode.Distance m)) ∨
        cur = start) →
      s.dist cur ≤ cf → s.dist cur < maxI →
      (s.dist cur).toNat < fuel →
      acc.head? = some cur →
      ∃ L, recon s.prev start fuel cur acc = some L ∧
        L.head? = some start ∧ L.getLast? = acc.getLast? ∧
        pathCost g L = pathCost g acc + s.dist cur := by
  intro fuel
  induction fuel with
  | zero =>
    intro cur acc _ _ _ hf _
    exact absurd hf (Nat.not_lt_zero _)
  | succ f ih =>
    intro cur acc hkind hcur hcurmax hfuel hhead
    by_cases hcs : cur = start
    · subst hcs
      refine ⟨acc, ?_, hhead, rfl, ?_⟩
      · rw [recon_succ, if_pos rfl]
      · rw [hd.base.dist_start]
        omega
    · have hdistk : ∃ m, lookupNode g cur = some (DijkstraNode.Distance m) := by
        rcases hkind with h | h
        · exact h
        · exact absurd h hcs
      rcases hdistk with ⟨m, hmk⟩
      rcases hd.base.prev_some cur hcurmax with h | h
      · exact absurd h hcs
      · rcases Option.isSome_iff_exists.mp h with ⟨u, hpu⟩
        have hlink := link_eq hwf hd hcf hpu hcur
        obtain ⟨hedge, hpe, _⟩ := hd.base.prev_edge cur u hpu
        have hec1 : 1 ≤ edgeCost g u cur := edgeCost_pos_of_distance hwf hmk
        have hdu_nn : 0 ≤ s.dist u := hd.base.dist_nonneg u
        have hdu_lt : s.dist u < s.dist cur := by omega
        have hdu_cf : s.dist u ≤ cf := by omega
        have hdu_max : s.dist u < maxI := by omega
        have hukind : (∃ m2, lookupNode g u =
            some (DijkstraNode.Distance m2)) ∨ u = start := by
          rcases source_kind hwf hedge with h1 | h1
          · exact Or.inr (finite_start_kind_eq hwf hd hdu_max h1)
          · exact Or.inl h1
        have hfu : (s.dist u).toNat < f := by omega
        cases acc with
        | nil => cases hhead
        | cons a0 accr =>
          obtain rfl : a0 = cur := by simpa using hhead
          have hrec := ih u (u :: a0 :: accr) hukind hdu_cf hdu_max hfu rfl
          rcases hrec with ⟨L, hL1, hL2, hL3, hL4⟩
          refine ⟨L, ?_, hL2, ?_, ?_⟩
          · rw [recon_succ, if_neg hcs, hpu]
            exact hL1
          · rw [hL3, List.getLast?_cons_cons]
          · rw [hL4]
            have hpc : pathCost g (u :: a0 :: accr) =
                edgeCost g u a0 + pathCost g (a0 :: accr) := rfl
            rw [hpc]
            omega

theorem dinv_init {g : Graph} {st : Nat} : DInv g st (initState st) := by
  have hmv : maxI = (2147483647 : Int) := rfl
  have hdv : ∀ v, (initState st).dist v = if v = st then 0 else maxI :=
    fun _ => rfl
  refine ⟨⟨?_, ?_, ?_, ?_, ?_, ?_⟩, ?_, ?_⟩
  · intro v
    rw [hdv v]
    split <;> omega
  · intro v
    rw [hdv v]
    split <;> omega
  · rw [hdv st, if_pos rfl]
  · intro q hq
    rcases List.mem_singleton.mp hq with rfl
    refine ⟨?_, ?_, ?_⟩
    · show (initState st).dist st ≤ (0 : Int)
      rw [hdv st, if_pos rfl]
    · show (0 : Int) ≤ 0
      omega
    · show (0 : Int) < maxI
      omega
  · intro v hv
    rw [hdv v] at hv
    by_cases hvs : v = st
    · exact Or.inl hvs
    · rw [if_neg hvs] at hv
      omega
  · intro v u hvu
    cases hvu
  · intro v u hvu
    cases hvu
  · intro u w _ hu
    by_cases hus : u = st
    · right
      refine ⟨{ cost := 0, node := st }, List.mem_singleton_self _,
        hus.symm, ?_⟩
      rw [hus, hdv st, if_pos rfl]
    · rw [hdv u, if_neg hus] at hu
      omega

theorem mu_init_lt (g : Graph) (st : Nat) : mu g (initState st) < loopFuel g := by
  unfold mu loopFuel
  have hq : (initState st).queue.length = 1 := rfl
  have hb : sumDist g (initState st) ≤ g.nodes.length * 2147483647 := by
    unfold sumDist
    have h1 : ∀ x ∈ g.nodes.map
        (fun p => ((initState st).dist p.1).toNat), x ≤ 2147483647 := by
      intro x hx
      rcases List.mem_map.mp hx with ⟨p, _, rfl⟩
      have hdv : (initState st).dist p.1 =
          if p.1 = st then 0 else maxI := rfl
      rw [hdv]
      split <;> simp [maxI]
    have h2 := List.sum_le_card_nsmul _ 2147483647 h1
    simpa [List.length_map, smul_eq_mul] using h2
  omega

theorem run_dijkstra_core_ok {app : DijkstraApp} {p : List Nat} {t : Int}
    (h : run_core app.snarl = (Except.ok p, some t)) :
    run_dijkstra app = (Except.ok p, { app with total_cost := t }) := by
  rw [run_dijkstra, h]

/-- C1: for every well-formed application graph (unique node ids, wires
between existing nodes out of the single offered output pin, legal kind
pairs, recomputed cost values at least 1) whose discovered Start and
Finish nodes are joined by at least one directed walk of total edge cost
below the i32::MAX sentinel, the search returns a path whose first node
is the Start, whose last node is the Finish, and stores as total cost
exactly the sum of the per-edge costs along that returned path, each
looked up in the destination node's cost map keyed by its predecessor. -/
theorem c1_path_and_cost :
    ∀ (app : DijkstraApp) (st fin : Nat),
      WFGraph app.snarl →
      findTerminals app.snarl = (some st, some fin) →
      (∃ l, isWalkB app.snarl l = true ∧ l.head? = some st ∧
        l.getLast? = some fin ∧ pathCost app.snarl l < maxI) →
      ∃ L, run_dijkstra app =
          (Except.ok L, { app with total_cost := pathCost app.snarl L }) ∧
        L.head? = some st ∧ L.getLast? = some fin := by
  intro app st fin hwf hft hwalk
  have hmv : maxI = (2147483647 : Int) := rfl
  have hstmem : (st, DijkstraNode.Start) ∈ app.snarl.nodes := by
    apply findTerminals_fst_mem
    rw [hft]
  have hstart : lookupNode app.snarl st = some DijkstraNode.Start :=
    lookup_eq_of_mem hwf.nodup hstmem
  have hfimem : ∃ mf, (fin, DijkstraNode.Finish mf) ∈ app.snarl.nodes := by
    apply findTerminals_snd_mem
    rw [hft]
  rcases hfimem with ⟨mf, hfm⟩
  have hfin : lookupNode app.snarl fin = some (DijkstraNode.Finish mf) :=
    lookup_eq_of_mem hwf.nodup hfm
  have hne : fin ≠ st := by
    intro he
    rw [he, hstart] at hfin
    exact DijkstraNode.noConfusion (Option.some.inj hfin)
  set se := dloop app.snarl fin (loopFuel app.snarl) (initState st) with hse
  obtain ⟨hdse, hend⟩ := dloop_master hwf hstart hfin (loopFuel app.snarl)
    (initState st) dinv_init (mu_init_lt app.snarl st)
  rw [← hse] at hdse hend
  have hkey : se.dist fin < maxI ∧
      ∃ cf, se.dist fin ≤ cf ∧ ∀ q ∈ se.queue, cf ≤ q.cost := by
    rcases hend with hempty | ⟨hmax, cf, h1, h2⟩
    · have hfr : ∀ u w, HasEdge app.snarl u w → se.dist u < maxI →
          se.dist w ≤ se.dist u + edgeCost app.snarl u w := by
        intro u w he hu
        rcases hdse.fr u w he hu with h | ⟨q, hq, _, _⟩
        · exact h
        · rw [hempty] at hq
          cases hq
      rcases hwalk with ⟨l, hl1, hl2, hl3, hl4⟩
      have hpln : 0 ≤ pathCost app.snarl l := pathCost_nonneg hwf l
      have hw := walk_dist hwf hfr l st 0 hl1 hl2
        (le_of_eq hdse.base.dist_start) (by omega)
      rcases hw with ⟨b, hb1, hb2⟩
      have hbfin : fin = b := by
        rw [hl3] at hb1
        exact Option.some.inj hb1
      rw [← hbfin] at hb2
      refine ⟨by omega, se.dist fin, le_refl _, ?_⟩
      intro q hq
      rw [hempty] at hq
      cases hq
    · exact ⟨hmax, cf, h1, h2⟩
  obtain ⟨hfinmax, cf, hcffin, hcfq⟩ := hkey
  have hprevsome : (se.prev fin).isSome = true := by
    rcases hdse.base.prev_some fin hfinmax with h | h
    · exact absurd h hne
    · exact h
  rcases Option.isSome_iff_exists.mp hprevsome with ⟨u1, hpu1⟩
  have hlink1 := link_eq hwf hdse hcfq hpu1 hcffin
  obtain ⟨hedge1, hpe1, _⟩ := hdse.base.prev_edge fin u1 hpu1
  have hec1 : 0 ≤ edgeCost app.snarl u1 fin := edgeCost_nonneg hwf u1 fin
  have hdu1nn : 0 ≤ se.dist u1 := hdse.base.dist_nonneg u1
  have hdu1cf : se.dist u1 ≤ cf := by omega
  have hdu1max : se.dist u1 < maxI := by omega
  have hu1kind : (∃ m2, lookupNode app.snarl u1 =
      some (DijkstraNode.Distance m2)) ∨ u1 = st := by
    rcases source_kind hwf hedge1 with h1 | h1
    · exact Or.inr (finite_start_kind_eq hwf hdse hdu1max h1)
    · exact Or.inl h1
  have hfu1 : (se.dist u1).toNat < 2147483648 := by omega
  have hrec := recon_spec hwf hstart hdse hcfq 2147483648 u1 [u1, fin]
    hu1kind hdu1cf hdu1max hfu1 rfl
  rcases hrec with ⟨L, hL1, hL2, hL3, hL4⟩
  have hL3fin : L.getLast? = some fin := by
    rw [hL3]
    rfl
  have hLcost : pathCost app.snarl L = se.dist fin := by
    rw [hL4]
    have hpc2 : pathCost app.snarl [u1, fin] = edgeCost app.snarl u1 fin := by
      simp [pathCost]
    rw [hpc2]
    omega
  have hcore : run_core app.snarl = (Except.ok L, some (se.dist fin)) := by
    rw [run_core_terminals hft, ← hse]
    rw [if_pos (Or.inl hprevsome)]
    have hrecon : recon se.prev st reconFuel fin [fin] = some L := by
      rw [show reconFuel = 2147483648 + 1 from rfl, recon_succ,
        if_neg hne, hpu1]
      exact hL1
    rw [hrecon]
  refine ⟨L, ?_, hL2, hL3fin⟩
  rw [run_dijkstra, hcore, ← hLcost]

/-- Witness application state for C1: Start 0 → Waypoint 1 (cost 2 from 0)
→ Finish 2 (cost 3 from 1). -/
def c1App : DijkstraApp :=
  { snarl :=
      { nodes := [(0, DijkstraNode.Start),
                  (1, DijkstraNode.Distance [(0, 2)]),
                  (2, DijkstraNode.Finish [(1, 3)])]
        wires := [{ srcNode := 0, srcOut := 0, dstNode := 1, dstIn := 0 },
                  { srcNode := 1, srcOut := 0, dstNode := 2, dstIn := 0 }] }
    path_nodes := [], auto_recalc := false, total_cost := 1 }

/-- Witness for C1 at the concrete three-node chain. -/
theorem c1_witness :
    ∃ L, run_dijkstra c1App =
        (Except.ok L, { c1App with total_cost := pathCost c1App.snarl L }) ∧
      L.head? = some 0 ∧ L.getLast? = some 2 := by
  exact c1_path_and_cost c1App 0 2
    ⟨by decide, by decide, by decide, by decide, by decide, by decide⟩
    (by decide)
    ⟨[0, 1, 2], by decide, rfl, rfl, by decide⟩

/-- Witness graph for C5: Start at 0 wired into Distance node 1. -/
def c5G : Graph :=
  { nodes := [(0, DijkstraNode.Start), (1, DijkstraNode.Distance [(9, 9)])]
    wires := [{ srcNode := 0, srcOut := 0, dstNode := 1, dstIn := 0 }] }

/-- Witness distance oracle for C5 (rounded anchor distance 25, so the
recomputed cost is 25 / 10 = 2). -/
def c5D : Nat → Nat → Int := fun _ _ => 25

/-- Witness for C5: the rebuilt map of node 1 contains the entry (0, 2),
which obeys the clamp formula and the floor; and node 1 carries the
rebuilt map after the pass. -/
theorem c5_witness :
    ((0 : Nat), (2 : Int)).2 = costFromDist (c5D 1 0) ∧ (1 : Int) ≤ 2 ∧
    (1, DijkstraNode.Distance (recomputeNodeCosts c5G [0, 1] c5D 1)) ∈
      (final_node_rect_pass c5G [0, 1] c5D).nodes := by
  refine ⟨?_, ?_, ?_⟩
  · exact ((c5_recompute_floor c5G [0, 1] c5D 1).1 (0, 2) (by decide)).1
  · exact ((c5_recompute_floor c5G [0, 1] c5D 1).1 (0, 2) (by decide)).2
  · exact (((c5_recompute_floor c5G [0, 1] c5D 1).2 (DijkstraNode.Distance
      [(9, 9)]) (by decide) (by decide)).1 [(9, 9)] rfl (by decide))

end DV
